import Mathlib

/-!
# Verification of the usb-manager rule-driven copy engine

Shallow embedding of the core logic of the usb-manager repository:

* `packages/server/src/rules.ts` — glob rule matching (`matchFile`),
  exclusion checks (`isExcluded`), config schema validation (`loadRules`).
* the copy engine (`scanDirectory`, `getUniqueDestPath`, `executeCopy`,
  feature-flagged variant).

External collaborators (the `picomatch` glob library, `node:path` helpers,
ECMAScript `localeCompare`, the filesystem) are modelled from their documented
semantics, as explained in the doc comment of each model.  Filesystem effects
are represented by per-task response oracles, so that `executeCopy` becomes a
pure function from a request and an oracle to the emitted snapshot trace.
-/

set_option autoImplicit false
set_option linter.unnecessarySeqFocus false

deriving instance DecidableEq for Except

namespace UsbManager

/-! ## Model of the picomatch glob matcher

The source calls `picomatch(pattern, { nocase, dot })` to obtain a path
predicate.  We model the documented glob semantics used by this repository
(spec §4.1): `*` matches within one path segment, `**` matches zero or more
whole segments, `?` matches a single character; `nocase` folds case; with
`dot := false` a leading-wildcard pattern segment never matches a name
starting with `.`, while `dot := true` lifts that restriction.  Brace
alternation and escape sequences are not exercised by any configuration in
the claims and are not modelled.  `picomatch` raises
"Expected pattern to be a non-empty string" when the pattern is the empty
string; this is the compile-time failure modelled by `picomatchCompile`. -/

structure GlobOpts where
  nocase : Bool
  dot : Bool
deriving DecidableEq, Repr

/-- Wildcard match of a pattern segment against one path-segment, both given
as character lists (already case-folded).  Fuel-indexed so that the kernel
can evaluate it; `segMatchTop` supplies sufficient fuel. -/
def segMatch : Nat → List Char → List Char → Bool
  | 0, _, _ => false
  | _ + 1, [], [] => true
  | _ + 1, [], _ :: _ => false
  | fuel + 1, c :: ps, cs =>
    if c = '*' then
      match cs with
      | [] => segMatch fuel ps []
      | _ :: xs => segMatch fuel ps cs || segMatch fuel (c :: ps) xs
    else
      match cs with
      | [] => false
      | x :: xs => c = x && segMatch fuel ps xs

/-- `segMatch` with enough fuel: each step shrinks `ps.length + cs.length`. -/
def segMatchTop (ps cs : List Char) : Bool :=
  segMatch (ps.length + cs.length + 1) ps cs

/-- Does a segment (as a char list) start with a literal dot? -/
def startsDot : List Char → Bool
  | '.' :: _ => true
  | _ => false

/-- One pattern segment against one path segment, honouring the `dot`
option: with `dot := false`, a path segment starting with `.` can only be
matched by a pattern segment that itself starts with a literal `.`. -/
def segMatchDot (dot : Bool) (ps cs : List Char) : Bool :=
  (if startsDot cs && !dot then startsDot ps else true) && segMatchTop ps cs

/-- Segment-level glob matching with `**` support, fuel-indexed. -/
def globSegs (dot : Bool) : Nat → List (List Char) → List (List Char) → Bool
  | 0, _, _ => false
  | _ + 1, [], [] => true
  | _ + 1, [], _ :: _ => false
  | fuel + 1, pseg :: ps, segs =>
    if pseg = ['*', '*'] then
      match segs with
      | [] => globSegs dot fuel ps []
      | s :: rest =>
        globSegs dot fuel ps (s :: rest) ||
          ((dot || !startsDot s) && globSegs dot fuel (pseg :: ps) rest)
    else
      match segs with
      | [] => false
      | s :: rest => segMatchDot dot pseg s && globSegs dot fuel ps rest

/-- Split a character list on a separator character (the semantics of
`String.splitOn` with a one-character separator). -/
def splitOnChar (sep : Char) : List Char → List (List Char)
  | [] => [[]]
  | c :: cs =>
    if c = sep then [] :: splitOnChar sep cs
    else
      match splitOnChar sep cs with
      | [] => [[c]]
      | seg :: rest => (c :: seg) :: rest

/-- Case-fold a segment when `nocase` is set. -/
def foldCaseChars (nocase : Bool) (l : List Char) : List Char :=
  if nocase then l.map Char.toLower else l

/-- Total glob predicate: the semantics of a compiled picomatch pattern. -/
def globMatch (pattern : String) (opts : GlobOpts) (path : String) : Bool :=
  let psegs := (splitOnChar '/' pattern.data).map (foldCaseChars opts.nocase)
  let ssegs := (splitOnChar '/' path.data).map (foldCaseChars opts.nocase)
  globSegs opts.dot (psegs.length + ssegs.length + 1) psegs ssegs

/-- Model of `picomatch(pattern, opts)`: compilation fails (throws) exactly
on the empty pattern, otherwise yields the compiled predicate. -/
def picomatchCompile (pattern : String) (opts : GlobOpts) :
    Except String (String → Bool) :=
  if pattern = "" then Except.error "Expected pattern to be a non-empty string"
  else Except.ok fun path => globMatch pattern opts path

/-- Option profile used for copy rules in `matchFile`:
`{ nocase: true, dot: false }`. -/
def ruleOpts : GlobOpts := { nocase := true, dot := false }

/-- Option profile used for exclusions in `isExcluded`:
`{ nocase: true, dot: true }`. -/
def exclOpts : GlobOpts := { nocase := true, dot := true }

/-! ## Model of the `node:path` helpers (POSIX)

Only the behaviours exercised by the repository are modelled: no
normalisation of `..`, `.` segments or duplicate slashes.  The spec treats
these as simple I/O wrappers. -/

/-- Is `pre` a (character-wise) prefix of `l`? -/
def prefChars : List Char → List Char → Bool
  | [], _ => true
  | _ :: _, [] => false
  | a :: as, b :: bs => a = b && prefChars as bs

/-- The semantics of `String.startsWith`. -/
def strStartsWith (s pre : String) : Bool :=
  prefChars pre.data s.data

/-- The semantics of `String.endsWith`. -/
def strEndsWith (s post : String) : Bool :=
  prefChars post.data.reverse s.data.reverse

/-- Last path segment (`node:path` basename without suffix stripping). -/
def lastSegment (p : String) : String :=
  String.mk (((splitOnChar '/' p.data).getLast?).getD p.data)

/-- Model of `path.extname`: the suffix of the basename from its last `.`,
empty when the only dot is the leading character (`.DS_Store` has no
extension). -/
def nodeExtname (p : String) : String :=
  let parts := splitOnChar '.' (lastSegment p).data
  if parts.length ≤ 1 then ""
  else if parts.head? = some [] ∧ parts.length = 2 then ""
  else "." ++ String.mk ((parts.getLast?).getD [])

/-- Model of `path.basename(p, ext)`: last segment, with the suffix `ext`
stripped when it is a proper suffix. -/
def nodeBasename (p ext : String) : String :=
  let seg := lastSegment p
  if ext ≠ "" ∧ seg ≠ ext ∧ strEndsWith seg ext = true then seg.dropRight ext.length
  else seg

/-- Model of `path.dirname`. -/
def nodeDirname (p : String) : String :=
  let parts := (splitOnChar '/' p.data).map String.mk
  let d := String.intercalate "/" parts.dropLast
  if d = "" then (if strStartsWith p "/" then "/" else ".") else d

/-- Model of `path.join(dir, name)` for the shapes used here. -/
def nodeJoin (dir name : String) : String :=
  if dir = "" then name
  else if strEndsWith dir "/" then dir ++ name
  else dir ++ "/" ++ name

/-- Ambient process state read by `rules.ts`: `os.homedir()` and the working
directory used by `path.resolve`.  Passed explicitly to keep the embedding
pure. -/
structure PathEnv where
  home : String
  cwd : String
deriving DecidableEq, Repr

/-- Model of `path.resolve(p)` relative to the ambient working directory
(no segment normalisation). -/
def nodeResolve (env : PathEnv) (p : String) : String :=
  if strStartsWith p "/" then p else nodeJoin env.cwd p

/-- `expandPath` from `rules.ts`: `~/`-expansion, otherwise `resolve`. -/
def expandPath (env : PathEnv) (path : String) : String :=
  if strStartsWith path "~/" then nodeJoin env.home (path.drop 2)
  else nodeResolve env path

/-! ## `rules.ts`: rule matching and exclusion -/

/-- One copy rule.  The source field `match` is a Lean keyword and is named
`matchPat` here. -/
structure CopyRule where
  matchPat : String
  destination : String
  enabled : Bool
deriving DecidableEq, Repr

/-- Result of a successful match: the rule and its resolved destination. -/
structure MatchedRule where
  rule : CopyRule
  destination : String
deriving DecidableEq, Repr

/-- `matchFile(relativePath, rules)` from `rules.ts`.  The loop skips
disabled rules, compiles each remaining rule's pattern with the Rule profile
(`nocase: true, dot: false`) and returns the first rule whose predicate
accepts the path, with the destination expanded.  A picomatch compile
exception propagates to the caller, hence the `Except`. -/
def matchFile (env : PathEnv) (relativePath : String) :
    List CopyRule → Except String (Option MatchedRule)
  | [] => Except.ok none
  | rule :: rest =>
    if !rule.enabled then matchFile env relativePath rest
    else
      match picomatchCompile rule.matchPat ruleOpts with
      | Except.error e => Except.error e
      | Except.ok isMatch =>
        if isMatch relativePath then
          Except.ok (some { rule := rule, destination := expandPath env rule.destination })
        else matchFile env relativePath rest

/-- `isExcluded(relativePath, fileName, exclusions)` from `rules.ts`: any
exclusion pattern (Exclusion profile: `nocase: true, dot: true`) matching
either the bare file name or the relative path excludes the entry.  An empty
exclusion list returns `false` immediately; a compile exception propagates. -/
def isExcluded (relativePath fileName : String) :
    List String → Except String Bool
  | [] => Except.ok false
  | pattern :: rest =>
    match picomatchCompile pattern exclOpts with
    | Except.error e => Except.error e
    | Except.ok isMatch =>
      if isMatch fileName || isMatch relativePath then Except.ok true
      else isExcluded relativePath fileName rest

/-! ## Config schema validation (`loadRules`)

`loadRules` reads `rules.yaml` and validates the parsed document with the
zod `ConfigSchema`.  We model the parsed YAML document as a `JValue` and the
schema as a checker over it.  The point relevant to the claims: the schema
only checks *types* (`match: z.string()`), it never compiles a glob
pattern, so configuration-load time cannot reject a malformed pattern. -/

/-- A parsed YAML/JSON document. -/
inductive JValue where
  | str : String → JValue
  | bool : Bool → JValue
  | num : Int → JValue
  | null : JValue
  | arr : List JValue → JValue
  | obj : List (String × JValue) → JValue

/-- Field lookup in an object value. -/
def jGet (fields : List (String × JValue)) (key : String) : Option JValue :=
  (fields.find? fun kv => kv.fst = key).map Prod.snd

/-- Feature flags (`FeaturesSchema`), all default `false`. -/
structure Features where
  copyHistory : Bool
  smartOrganization : Bool
  contentDuplicates : Bool
  scheduledActions : Bool
deriving DecidableEq, Repr

/-- `SmartOrganizationSchema` with its defaults. -/
structure SmartOrganizationConfig where
  pattern : String
  useMetadata : Bool
deriving DecidableEq, Repr

/-- `ScheduledActionsSchema` with its defaults. -/
structure ScheduledActionsConfig where
  autoDeleteAfterCopy : Bool
  autoEjectAfterCopy : Bool
  cleanupOldFiles : Bool
  cleanupDays : Int
deriving DecidableEq, Repr

/-- The validated configuration (`ConfigSchema`). -/
structure RulesConfig where
  rules : List CopyRule
  unmatchedDestination : Option String
  exclusions : List String
  features : Features
  smartOrganization : SmartOrganizationConfig
  scheduledActions : ScheduledActionsConfig
deriving DecidableEq, Repr

/-- `RuleSchema`: `match` and `destination` must be strings, `enabled` is an
optional boolean defaulting to `true`.  Any string — including the empty
string, which picomatch later rejects — passes. -/
def parseRule : JValue → Except String CopyRule
  | JValue.obj fields =>
    match jGet fields "match", jGet fields "destination" with
    | some (JValue.str m), some (JValue.str d) =>
      match jGet fields "enabled" with
      | none => Except.ok { matchPat := m, destination := d, enabled := true }
      | some (JValue.bool b) => Except.ok { matchPat := m, destination := d, enabled := b }
      | some _ => Except.error "enabled: expected boolean"
    | _, _ => Except.error "rule: expected string match and destination"
  | _ => Except.error "rule: expected object"

/-- `FeaturesSchema`: four optional booleans, all defaulting to `false`. -/
def parseFeatures : Option JValue → Except String Features
  | none =>
    Except.ok { copyHistory := false, smartOrganization := false,
                contentDuplicates := false, scheduledActions := false }
  | some (JValue.obj fields) =>
    let flag : String → Except String Bool := fun key =>
      match jGet fields key with
      | none => Except.ok false
      | some (JValue.bool b) => Except.ok b
      | some _ => Except.error "features: expected boolean"
    match flag "copyHistory", flag "smartOrganization",
        flag "contentDuplicates", flag "scheduledActions" with
    | Except.ok a, Except.ok b, Except.ok c, Except.ok d =>
      Except.ok { copyHistory := a, smartOrganization := b,
                  contentDuplicates := c, scheduledActions := d }
    | _, _, _, _ => Except.error "features: expected boolean"
  | some _ => Except.error "features: expected object"

/-- `SmartOrganizationSchema` with defaults
(pattern `\x7byear\x7d/\x7bmonth\x7d/\x7bday\x7d/\x7bname\x7d`). -/
def parseSmartOrganization : Option JValue → Except String SmartOrganizationConfig
  | none =>
    Except.ok { pattern := "\x7byear\x7d/\x7bmonth\x7d/\x7bday\x7d/\x7bname\x7d",
                useMetadata := true }
  | some (JValue.obj fields) =>
    let pat :=
      match jGet fields "pattern" with
      | some (JValue.str s) => Except.ok s
      | none => Except.ok "\x7byear\x7d/\x7bmonth\x7d/\x7bday\x7d/\x7bname\x7d"
      | some _ => Except.error "smartOrganization.pattern: expected string"
    let meta :=
      match jGet fields "useMetadata" with
      | some (JValue.bool b) => Except.ok b
      | none => Except.ok true
      | some _ => Except.error "smartOrganization.useMetadata: expected boolean"
    match pat, meta with
    | Except.ok p, Except.ok m => Except.ok { pattern := p, useMetadata := m }
    | Except.error e, _ => Except.error e
    | _, Except.error e => Except.error e
  | some _ => Except.error "smartOrganization: expected object"

/-- `ScheduledActionsSchema` with defaults. -/
def parseScheduledActions : Option JValue → Except String ScheduledActionsConfig
  | none =>
    Except.ok { autoDeleteAfterCopy := false, autoEjectAfterCopy := false,
                cleanupOldFiles := false, cleanupDays := 30 }
  | some (JValue.obj fields) =>
    let flag : String → Except String Bool := fun key =>
      match jGet fields key with
      | none => Except.ok false
      | some (JValue.bool b) => Except.ok b
      | some _ => Except.error "scheduledActions: expected boolean"
    let days :=
      match jGet fields "cleanupDays" with
      | none => Except.ok (30 : Int)
      | some (JValue.num n) => Except.ok n
      | some _ => Except.error "scheduledActions.cleanupDays: expected number"
    match flag "autoDeleteAfterCopy", flag "autoEjectAfterCopy",
        flag "cleanupOldFiles", days with
    | Except.ok a, Except.ok b, Except.ok c, Except.ok d =>
      Except.ok { autoDeleteAfterCopy := a, autoEjectAfterCopy := b,
                  cleanupOldFiles := c, cleanupDays := d }
    | _, _, _, _ => Except.error "scheduledActions: invalid field"
  | some _ => Except.error "scheduledActions: expected object"

/-- Validate a rule list (`z.array(RuleSchema)`). -/
def parseRules : List JValue → Except String (List CopyRule)
  | [] => Except.ok []
  | v :: rest =>
    match parseRule v, parseRules rest with
    | Except.ok r, Except.ok rs => Except.ok (r :: rs)
    | Except.error e, _ => Except.error e
    | _, Except.error e => Except.error e

/-- Validate an exclusion list (`z.array(z.string())`). -/
def parseExclusions : List JValue → Except String (List String)
  | [] => Except.ok []
  | JValue.str s :: rest =>
    match parseExclusions rest with
    | Except.ok ss => Except.ok (s :: ss)
    | Except.error e => Except.error e
  | _ :: _ => Except.error "exclusions: expected string"

/-- `ConfigSchema.parse`: the whole validation `loadRules` performs on a
successfully parsed YAML document.  No glob pattern is compiled here. -/
def configSchemaParse : JValue → Except String RulesConfig
  | JValue.obj fields =>
    match jGet fields "rules", jGet fields "defaults" with
    | some (JValue.arr ruleVals), some (JValue.obj defFields) =>
      let unmatched : Except String (Option String) :=
        match jGet defFields "unmatchedDestination" with
        | some JValue.null => Except.ok none
        | some (JValue.str s) => Except.ok (some s)
        | _ => Except.error "defaults.unmatchedDestination: expected string or null"
      let exclusions : Except String (List String) :=
        match jGet fields "exclusions" with
        | none => Except.ok []
        | some (JValue.arr vs) => parseExclusions vs
        | some _ => Except.error "exclusions: expected array"
      match parseRules ruleVals, unmatched, exclusions,
          parseFeatures (jGet fields "features"),
          parseSmartOrganization (jGet fields "smartOrganization"),
          parseScheduledActions (jGet fields "scheduledActions") with
      | Except.ok rs, Except.ok u, Except.ok ex, Except.ok fe, Except.ok so, Except.ok sa =>
        Except.ok { rules := rs, unmatchedDestination := u, exclusions := ex,
                    features := fe, smartOrganization := so, scheduledActions := sa }
      | Except.error e, _, _, _, _, _ => Except.error e
      | _, Except.error e, _, _, _, _ => Except.error e
      | _, _, Except.error e, _, _, _ => Except.error e
      | _, _, _, Except.error e, _, _ => Except.error e
      | _, _, _, _, Except.error e, _ => Except.error e
      | _, _, _, _, _, Except.error e => Except.error e
    | _, _ => Except.error "config: expected rules array and defaults object"
  | _ => Except.error "config: expected object"

/-! ## Model of `String.prototype.localeCompare`

`scanDirectory` sorts sibling names with `a.name.localeCompare(b.name)`.
Under the default (ICU root) locale, restricted to ASCII strings as they
occur in these scans, collation compares a primary key (letters folded to a
common case, so `a < B` because `a < b`) and breaks primary ties with a
tertiary key under which lowercase sorts before uppercase (`a < A`).  This
is *not* code-unit lexicographic order: code-unit order has `B < a`. -/

/-- Three-way comparison of `Nat` lists (lexicographic). -/
def compareList : List Nat → List Nat → Ordering
  | [], [] => Ordering.eq
  | [], _ :: _ => Ordering.lt
  | _ :: _, [] => Ordering.gt
  | a :: as, b :: bs =>
    if a < b then Ordering.lt
    else if b < a then Ordering.gt
    else compareList as bs

/-- Primary collation key: letters case-folded, other characters by code
point. -/
def primaryKey (s : String) : List Nat :=
  s.toList.map fun c => c.toLower.toNat

/-- Tertiary collation key: lowercase (and non-letters) before uppercase. -/
def tertiaryKey (s : String) : List Nat :=
  s.toList.map fun c => if c.isUpper then 1 else 0

/-- Collation ordering: primary key first, ties broken by the tertiary
key. -/
def collCompare (a b : String) : Ordering :=
  match compareList (primaryKey a) (primaryKey b) with
  | Ordering.eq => compareList (tertiaryKey a) (tertiaryKey b)
  | o => o

/-- The `localeCompare` model: `-1`, `0` or `1` from the collation
ordering. -/
def localeCompare (a b : String) : Int :=
  match collCompare a b with
  | Ordering.lt => -1
  | Ordering.eq => 0
  | Ordering.gt => 1

/-! ## `scanDirectory`

The scanner walks the filesystem with `readdir`/`stat`.  We model the
filesystem subtree as an `FsNode` tree carrying the per-entry I/O outcomes:
`statOk = false` means the `stat` call throws (the entry is skipped), and a
directory's `readOk = false` means the recursive `readdir` throws (the
subdirectory scans as empty). -/

/-- One filesystem node, with its I/O outcomes. -/
inductive FsNode where
  | file : (name : String) → (size : Nat) → (mtime : Nat) → (statOk : Bool) → FsNode
  | dir : (name : String) → (size : Nat) → (mtime : Nat) → (statOk : Bool) →
      (readOk : Bool) → (children : List FsNode) → FsNode

def FsNode.name : FsNode → String
  | FsNode.file n _ _ _ => n
  | FsNode.dir n _ _ _ _ _ => n

def FsNode.statOk : FsNode → Bool
  | FsNode.file _ _ _ ok => ok
  | FsNode.dir _ _ _ ok _ _ => ok

/-- A `FileEntry` as produced by the scanner (children only for
directories). -/
inductive FileEntry where
  | mk : (name : String) → (path : String) → (relativePath : String) →
      (isDirectory : Bool) → (size : Nat) → (modifiedAt : Nat) →
      (children : Option (List FileEntry)) → FileEntry

def FileEntry.name : FileEntry → String
  | FileEntry.mk n _ _ _ _ _ _ => n

def FileEntry.isDirectory : FileEntry → Bool
  | FileEntry.mk _ _ _ d _ _ _ => d

def FileEntry.relativePath : FileEntry → String
  | FileEntry.mk _ _ r _ _ _ _ => r

def FileEntry.children : FileEntry → Option (List FileEntry)
  | FileEntry.mk _ _ _ _ _ _ c => c

/-- The comparator passed to `entries.sort`: directories first, then
`localeCompare` on names. -/
def entryCompare (a b : FileEntry) : Int :=
  if a.isDirectory && !b.isDirectory then -1
  else if !a.isDirectory && b.isDirectory then 1
  else localeCompare a.name b.name

/-- Insert into a sorted accumulator, after every element not strictly
greater: the stable insertion step. -/
def insertBy {α : Type} (cmp : α → α → Int) (x : α) : List α → List α
  | [] => [x]
  | y :: ys => if cmp x y < 0 then x :: y :: ys else y :: insertBy cmp x ys

/-- Model of `Array.prototype.sort(comparator)`: a stable sort (mandated
since ES2019), realised as left-to-right stable insertion.  For a
consistent comparator the stable sorted order is unique, so the choice of
stable algorithm is immaterial. -/
def stableSortBy {α : Type} (cmp : α → α → Int) (l : List α) : List α :=
  l.foldl (fun acc x => insertBy cmp x acc) []

/-- `entries.sort(...)` as called at the end of `scanDirectory`. -/
def sortEntries (l : List FileEntry) : List FileEntry :=
  stableSortBy entryCompare l

/-- Relative path of a child: `path.relative(basePath, join(dirPath, name))`
when scanning below the base, i.e. the parent's relative path extended by
the name. -/
def childRel (pre name : String) : String :=
  if pre = "" then name else pre ++ "/" ++ name

/-- The `readdir` loop body of `scanDirectory` (feature-flagged variant):
for each child, check `isExcluded` against its relative path and bare name,
then drop `$RECYCLE.BIN`, then `stat` (skipping entries whose `stat`
throws) and recurse into directories.  A picomatch exception from
`isExcluded` is not caught inside the loop: it aborts the loop, and the
outer catch keeps the entries gathered so far.  Fuel-indexed (consumed on
every recursive call) so the kernel can evaluate it; any fuel larger than
the tree's node count gives the real semantics. -/
def scanGo : Nat → List String → String → String → List FsNode → List FileEntry
  | 0, _, _, _, _ => []
  | _ + 1, _, _, _, [] => []
  | fuel + 1, excl, absPre, relPre, item :: rest =>
    let fullPath := nodeJoin absPre item.name
    let relativePath := childRel relPre item.name
    match isExcluded relativePath item.name excl with
    | Except.error _ => []
    | Except.ok true => scanGo fuel excl absPre relPre rest
    | Except.ok false =>
      if item.name = "$RECYCLE.BIN" then scanGo fuel excl absPre relPre rest
      else
        match item with
        | FsNode.file n size mtime statOk =>
          if statOk then
            FileEntry.mk n fullPath relativePath false size mtime none
              :: scanGo fuel excl absPre relPre rest
          else scanGo fuel excl absPre relPre rest
        | FsNode.dir n size mtime statOk readOk children =>
          if statOk then
            FileEntry.mk n fullPath relativePath true size mtime
                (some (sortEntries
                  (if readOk then scanGo fuel excl fullPath relativePath children
                   else [])))
              :: scanGo fuel excl absPre relPre rest
          else scanGo fuel excl absPre relPre rest

/-- `scanDirectory(dirPath, basePath, exclusions)` on a directory whose
`readdir` yielded `items`: collect the surviving children, then sort
siblings with the directories-first/`localeCompare` comparator. -/
def scanDirectory (fuel : Nat) (excl : List String) (absPre relPre : String)
    (items : List FsNode) : List FileEntry :=
  sortEntries (scanGo fuel excl absPre relPre items)

/-! ## The copy engine (`executeCopy`, feature-flagged variant)

`executeCopy(request, ...)` is an async generator interacting with the
filesystem through `stat`, `existsSync`, `copyFile`, the optional
content-hash / smart-organization stages, and the history sink.  We model
one run as a pure function of the request and a response oracle: `TaskEnv`
records, for the task at a given list position, the outcome of each
fallible operation the task may perform, in program order.  `executeCopy`
then returns the exact list of progress snapshots the generator yields.
History recording and scheduled actions run outside the per-task loop and
never touch the progress record, so they do not appear in the trace model
(their failures are logged, or occur after the final snapshot). -/

/-- Wire status enum of `CopyProgress`. -/
inductive Status where
  | pending
  | copying
  | completed
  | error
deriving DecidableEq, Repr

/-- One progress snapshot (the `CopyProgress` wire object). -/
structure CopyProgress where
  id : String
  status : Status
  totalFiles : Nat
  copiedFiles : Nat
  skippedFiles : Nat
  totalBytes : Nat
  copiedBytes : Nat
  currentFile : Option String
  error : Option String
deriving DecidableEq, Repr

/-- The `onDuplicate` policy. -/
inductive OnDuplicate where
  | skip
  | overwrite
  | rename
deriving DecidableEq, Repr

/-- One unit of work from the copy request. -/
structure CopyTask where
  sourcePath : String
  destinationPath : String
deriving DecidableEq, Repr

/-- The transport payload `CopyRequest`. -/
structure CopyRequest where
  files : List CopyTask
  onDuplicate : Option OnDuplicate
deriving DecidableEq, Repr

/-- Filesystem responses for one task, in the order the task performs the
operations.  `Except.error msg` means the call throws with message `msg`.
* `statPre` — the pre-pass `stat` of the source (its exception is swallowed,
  hence `Option`);
* `statSource` — the per-task `stat` of the source;
* `organizedPath` — result of `getOrganizedPath` when smart organization is
  enabled (an external stage: it stats the source and rewrites the path);
* `destExists` — `existsSync` on a destination candidate (also probed by
  `getUniqueDestPath` under the rename policy);
* `isDup` — the content-duplicate check against a destination;
* `hashSource` — `calculateFileHash` on the source (history feature);
* `copyResult` — `copyFile(source, dest)`: mkdir + stream copy. -/
structure TaskEnv where
  statPre : Option Nat
  statSource : Except String Nat
  organizedPath : Except String String
  destExists : String → Bool
  isDup : String → Except String Bool
  hashSource : Except String String
  copyResult : String → Except String Unit

/-- Whole-run environment: the generated run id, the loaded feature flags,
the per-position task oracles, and the fuel bound for the
`getUniqueDestPath` probing loop. -/
structure CopyEnv where
  id : String
  features : Features
  taskEnv : Nat → TaskEnv
  renameFuel : Nat

/-- The `while (existsSync(newPath))` loop of `getUniqueDestPath`,
fuel-indexed (the JS loop has no intrinsic bound). -/
def uniqueLoop (dir base ext : String) (ex : String → Bool) :
    Nat → Nat → String → String
  | 0, _, cur => cur
  | fuel + 1, counter, cur =>
    if ex cur then
      uniqueLoop dir base ext ex fuel (counter + 1)
        (nodeJoin dir (base ++ "_" ++ toString counter ++ ext))
    else cur

/-- `getUniqueDestPath(destPath)`: probe `destPath`, then `base_1.ext`,
`base_2.ext`, … until a candidate does not exist. -/
def getUniqueDestPath (fuel : Nat) (ex : String → Bool) (destPath : String) : String :=
  uniqueLoop (nodeDirname destPath)
    (nodeBasename destPath (nodeExtname destPath)) (nodeExtname destPath)
    ex fuel 1 destPath

/-- The `k`-th candidate probed by `getUniqueDestPath`: the original path
for `k = 0`, then `base_k.ext` in the same directory. -/
def renameCandidate (destPath : String) : Nat → String
  | 0 => destPath
  | k + 1 =>
    nodeJoin (nodeDirname destPath)
      (nodeBasename destPath (nodeExtname destPath) ++ "_" ++ toString (k + 1)
        ++ nodeExtname destPath)

/-- The error snapshot update of the catch block:
`progress.status = 'error'; progress.error = message`. -/
def errSnap (p : CopyProgress) (msg : String) : CopyProgress :=
  { p with status := Status.error, error := some msg }

/-- Counter update of a skip:
`copiedBytes += size; skippedFiles += 1`. -/
def creditSkip (p : CopyProgress) (size : Nat) : CopyProgress :=
  { p with copiedBytes := p.copiedBytes + size,
           skippedFiles := p.skippedFiles + 1 }

/-- Counter update of a successful copy:
`copiedBytes += size; copiedFiles += 1`. -/
def creditCopy (p : CopyProgress) (size : Nat) : CopyProgress :=
  { p with copiedBytes := p.copiedBytes + size,
           copiedFiles := p.copiedFiles + 1 }

/-- The copy step reached with an effective destination path: `copyFile`,
then (when both history and content-duplicate features are on) a hash of
the source, then the counter update.  Either throw lands in the catch
block, producing the error snapshot before the counters are bumped. -/
def copyStep (feats : Features) (te : TaskEnv) (size : Nat) (destPath : String)
    (p : CopyProgress) : Except CopyProgress CopyProgress :=
  match te.copyResult destPath with
  | Except.error msg => Except.error (errSnap p msg)
  | Except.ok _ =>
    match (if feats.copyHistory && feats.contentDuplicates
           then Except.map some te.hashSource
           else Except.ok none : Except String (Option String)) with
    | Except.error msg => Except.error (errSnap p msg)
    | Except.ok _ => Except.ok (creditCopy p size)

/-- The `try`-block of one loop iteration of `executeCopy` (feature-flagged
variant), from the per-task `stat` of the source to the final yield of the
iteration: `Except.ok q` is the snapshot yielded on `continue`/fall-through,
`Except.error q` the error snapshot after which the generator returns. -/
def taskBody (feats : Features) (onDup : OnDuplicate) (fuel : Nat)
    (te : TaskEnv) (file : CopyTask) (p : CopyProgress) :
    Except CopyProgress CopyProgress :=
  match te.statSource with
  | Except.error msg => Except.error (errSnap p msg)
  | Except.ok size =>
    match (if feats.smartOrganization then te.organizedPath
           else Except.ok file.destinationPath) with
    | Except.error msg => Except.error (errSnap p msg)
    | Except.ok destPath =>
      let destExists := te.destExists destPath
      match (if feats.contentDuplicates && destExists then te.isDup destPath
             else Except.ok false) with
      | Except.error msg => Except.error (errSnap p msg)
      | Except.ok isContentDuplicate =>
        if isContentDuplicate && onDup = OnDuplicate.skip then
          let p1 := creditSkip p size
          if feats.copyHistory then
            match te.hashSource with
            | Except.error msg => Except.error (errSnap p1 msg)
            | Except.ok _ => Except.ok p1
          else Except.ok p1
        else if destExists && !isContentDuplicate then
          match onDup with
          | OnDuplicate.skip => Except.ok (creditSkip p size)
          | OnDuplicate.rename =>
            copyStep feats te size (getUniqueDestPath fuel te.destExists destPath) p
          | OnDuplicate.overwrite => copyStep feats te size destPath p
        else copyStep feats te size destPath p

/-- The per-task loop of `executeCopy`, starting at list position `i` with
the mutable progress record in state `p`: each iteration first sets
`currentFile` and yields, then runs the task body and yields its snapshot;
an error snapshot terminates the run, otherwise the loop continues, and
after the last task the completed snapshot (with `currentFile` cleared) is
yielded. -/
def runTasks (env : CopyEnv) (onDup : OnDuplicate) :
    List CopyTask → Nat → CopyProgress → List CopyProgress
  | [], _, p => [{ p with status := Status.completed, currentFile := none }]
  | file :: rest, i, p =>
    match taskBody env.features onDup env.renameFuel (env.taskEnv i) file
        { p with currentFile := some file.sourcePath } with
    | Except.error pe => [{ p with currentFile := some file.sourcePath }, pe]
    | Except.ok p2 =>
      { p with currentFile := some file.sourcePath } :: p2
        :: runTasks env onDup rest (i + 1) p2

/-- The pre-pass over `request.files`: accumulate `totalBytes` from the
sources whose `stat` succeeds, silently skipping the rest. -/
def prePassTotal (env : CopyEnv) (n : Nat) : Nat :=
  (List.range n).foldl (fun acc i => acc + ((env.taskEnv i).statPre.getD 0)) 0

/-- `executeCopy(request)`: the full emitted snapshot trace of one run.
The progress record is initialised with `status: 'pending'`; only the very
first yield overrides the status to `'copying'` in the yielded copy — the
record itself keeps `pending` until the terminal transition. -/
def executeCopy (req : CopyRequest) (env : CopyEnv) : List CopyProgress :=
  let totalFiles := req.files.length
  let onDuplicate := req.onDuplicate.getD OnDuplicate.skip
  let totalBytes := prePassTotal env req.files.length
  let progress : CopyProgress :=
    { id := env.id, status := Status.pending, totalFiles := totalFiles,
      copiedFiles := 0, skippedFiles := 0, totalBytes := totalBytes,
      copiedBytes := 0, currentFile := none, error := none }
  { progress with status := Status.copying }
    :: runTasks env onDuplicate req.files 0 progress

/-! ## Specification-side definitions and proof-side measures -/

/-- Claim-side restatement of `matchFile` (C1): the first enabled rule (by
list position) whose pattern matches the path under the Rule profile, with
the destination resolved. -/
def matchFileSpec (env : PathEnv) (relativePath : String)
    (rules : List CopyRule) : Option MatchedRule :=
  (rules.find? fun r => r.enabled && globMatch r.matchPat ruleOpts relativePath).map
    fun r => { rule := r, destination := expandPath env r.destination }

/-- Claim-side total exclusion predicate (C8): some exclusion pattern
matches the bare name or the relative path under the Exclusion profile. -/
def isExcludedB (relativePath fileName : String) (exclusions : List String) : Bool :=
  exclusions.any fun pat =>
    globMatch pat exclOpts fileName || globMatch pat exclOpts relativePath

/-- All names in a scanned forest, to the given depth: used to state that an
excluded name appears at no nesting depth of a scan result. -/
def namesIn : Nat → List FileEntry → List String
  | 0, _ => []
  | _ + 1, [] => []
  | fuel + 1, e :: rest =>
    e.name :: ((match e.children with
      | none => []
      | some cs => namesIn fuel cs) ++ namesIn fuel rest)

/-- An entry is `bad`-free: its own name differs from `bad` and no name in
its (arbitrary-depth) children equals `bad`. -/
def SafeEntry (bad : String) (e : FileEntry) : Prop :=
  e.name ≠ bad ∧ ∀ cs, e.children = some cs → ∀ f2, bad ∉ namesIn f2 cs

/-- Counter-monotonicity relation between snapshots (C2). -/
def snapLE (s t : CopyProgress) : Prop :=
  s.copiedFiles ≤ t.copiedFiles ∧ s.skippedFiles ≤ t.skippedFiles ∧
    s.copiedBytes ≤ t.copiedBytes

/-- One trace step changes `copiedFiles` by zero or one. -/
def copyCountStep (s t : CopyProgress) : Prop :=
  t.copiedFiles = s.copiedFiles ∨ t.copiedFiles = s.copiedFiles + 1

/-- The number of trace steps that increment `copiedFiles`: the observable
count of files successfully copied during the emitted sequence (C3). -/
def incCount : List CopyProgress → Nat
  | [] => 0
  | [_] => 0
  | a :: b :: rest =>
    (if b.copiedFiles = a.copiedFiles + 1 then 1 else 0) + incCount (b :: rest)

/-- Sum of the pre-pass stat sizes of the tasks at positions
`i, i+1, …, i+len-1`. -/
def sumFrom (env : CopyEnv) : Nat → Nat → Nat
  | _, 0 => 0
  | i, len + 1 => ((env.taskEnv i).statPre.getD 0) + sumFrom env (i + 1) len

/-! ## Lemmas about one task iteration -/

/-- Exhaustive outcome analysis of one task body: it either throws before
touching the counters, throws after crediting a skip (a content-duplicate
skip whose history hash then throws), completes as a skip, or completes as
a copy; either completed outcome credits exactly the stat-reported source
size. -/
theorem taskBody_cases (feats : Features) (onDup : OnDuplicate) (fuel : Nat)
    (te : TaskEnv) (file : CopyTask) (p : CopyProgress) :
    (∃ msg, taskBody feats onDup fuel te file p = Except.error (errSnap p msg)) ∨
    (∃ size msg, te.statSource = Except.ok size ∧
      taskBody feats onDup fuel te file p = Except.error (errSnap (creditSkip p size) msg)) ∨
    (∃ size, te.statSource = Except.ok size ∧
      taskBody feats onDup fuel te file p = Except.ok (creditSkip p size)) ∨
    (∃ size, te.statSource = Except.ok size ∧
      taskBody feats onDup fuel te file p = Except.ok (creditCopy p size)) := by
  unfold taskBody
  cases hs : te.statSource with
  | error msg => exact Or.inl ⟨msg, rfl⟩
  | ok size =>
    cases ho : (if feats.smartOrganization then te.organizedPath
        else Except.ok file.destinationPath) with
    | error msg => exact Or.inl ⟨msg, rfl⟩
    | ok destPath =>
      simp only []
      cases hd : (if feats.contentDuplicates && te.destExists destPath
          then te.isDup destPath else Except.ok false) with
      | error msg => exact Or.inl ⟨msg, rfl⟩
      | ok isContentDuplicate =>
        by_cases hdup : (isContentDuplicate && onDup = OnDuplicate.skip) = true
        · simp only [hdup, if_true]
          by_cases hh : feats.copyHistory = true
          · simp only [hh, if_true]
            cases hhash : te.hashSource with
            | error msg =>
              exact Or.inr (Or.inl ⟨size, msg, rfl, rfl⟩)
            | ok h => exact Or.inr (Or.inr (Or.inl ⟨size, rfl, rfl⟩))
          · simp only [eq_false_of_ne_true hh, if_false]
            exact Or.inr (Or.inr (Or.inl ⟨size, rfl, rfl⟩))
        · simp only [eq_false_of_ne_true hdup, if_false]
          have copyStepCases : ∀ dp : String,
              (∃ msg, copyStep feats te size dp p = Except.error (errSnap p msg)) ∨
              (copyStep feats te size dp p = Except.ok (creditCopy p size)) := by
            intro dp
            unfold copyStep
            cases hc : te.copyResult dp with
            | error msg => exact Or.inl ⟨msg, rfl⟩
            | ok u =>
              cases hh2 : (if feats.copyHistory && feats.contentDuplicates
                  then Except.map some te.hashSource
                  else Except.ok none : Except String (Option String)) with
              | error msg => exact Or.inl ⟨msg, rfl⟩
              | ok h => exact Or.inr rfl
          by_cases hde : (te.destExists destPath && !isContentDuplicate) = true
          · simp only [hde, if_true]
            cases onDup with
            | skip => exact Or.inr (Or.inr (Or.inl ⟨size, rfl, rfl⟩))
            | rename =>
              rcases copyStepCases (getUniqueDestPath fuel te.destExists destPath) with
                  ⟨msg, hcs⟩ | hcs
              · exact Or.inl ⟨msg, hcs⟩
              · exact Or.inr (Or.inr (Or.inr ⟨size, rfl, hcs⟩))
            | overwrite =>
              rcases copyStepCases destPath with ⟨msg, hcs⟩ | hcs
              · exact Or.inl ⟨msg, hcs⟩
              · exact Or.inr (Or.inr (Or.inr ⟨size, rfl, hcs⟩))
          · simp only [eq_false_of_ne_true hde, if_false]
            rcases copyStepCases destPath with ⟨msg, hcs⟩ | hcs
            · exact Or.inl ⟨msg, hcs⟩
            · exact Or.inr (Or.inr (Or.inr ⟨size, rfl, hcs⟩))

/-- Field bookkeeping of a task that completes without error. -/
theorem taskBody_ok_facts {feats : Features} {onDup : OnDuplicate} {fuel : Nat}
    {te : TaskEnv} {file : CopyTask} {p q : CopyProgress}
    (h : taskBody feats onDup fuel te file p = Except.ok q) :
    q.id = p.id ∧ q.status = p.status ∧ q.totalFiles = p.totalFiles ∧
    q.totalBytes = p.totalBytes ∧ q.currentFile = p.currentFile ∧ q.error = p.error ∧
    q.copiedFiles + q.skippedFiles = p.copiedFiles + p.skippedFiles + 1 ∧
    p.copiedFiles ≤ q.copiedFiles ∧ q.copiedFiles ≤ p.copiedFiles + 1 ∧
    p.skippedFiles ≤ q.skippedFiles ∧
    (∃ size, te.statSource = Except.ok size ∧ q.copiedBytes = p.copiedBytes + size) := by
  rcases taskBody_cases feats onDup fuel te file p with
      ⟨msg, hc⟩ | ⟨size, msg, hstat, hc⟩ | ⟨size, hstat, hc⟩ | ⟨size, hstat, hc⟩ <;>
    rw [h] at hc
  · cases hc
  · cases hc
  · cases hc
    refine ⟨rfl, rfl, rfl, rfl, rfl, rfl, ?_, ?_, ?_, ?_, size, hstat, ?_⟩ <;>
      simp [creditSkip] <;> omega
  · cases hc
    refine ⟨rfl, rfl, rfl, rfl, rfl, rfl, ?_, ?_, ?_, ?_, size, hstat, ?_⟩ <;>
      simp [creditCopy] <;> omega

/-- Field bookkeeping of a task that throws: the error snapshot keeps the
counters (except possibly one already-credited skip), records a message and
never counts the failing task as copied. -/
theorem taskBody_error_facts {feats : Features} {onDup : OnDuplicate} {fuel : Nat}
    {te : TaskEnv} {file : CopyTask} {p q : CopyProgress}
    (h : taskBody feats onDup fuel te file p = Except.error q) :
    q.id = p.id ∧ q.status = Status.error ∧ q.totalFiles = p.totalFiles ∧
    q.totalBytes = p.totalBytes ∧ q.currentFile = p.currentFile ∧
    q.error.isSome = true ∧ q.copiedFiles = p.copiedFiles ∧
    p.skippedFiles ≤ q.skippedFiles ∧ q.skippedFiles ≤ p.skippedFiles + 1 ∧
    p.copiedBytes ≤ q.copiedBytes := by
  rcases taskBody_cases feats onDup fuel te file p with
      ⟨msg, hc⟩ | ⟨size, msg, hstat, hc⟩ | ⟨size, hstat, hc⟩ | ⟨size, hstat, hc⟩ <;>
    rw [h] at hc
  · cases hc
    refine ⟨rfl, rfl, rfl, rfl, rfl, ?_, ?_, ?_, ?_, ?_⟩ <;>
      simp [errSnap]
  · cases hc
    refine ⟨rfl, rfl, rfl, rfl, rfl, ?_, ?_, ?_, ?_, ?_⟩ <;>
      simp [errSnap, creditSkip]
  · cases hc
  · cases hc

/-! ## Lemmas about the task loop -/

/-- The loop always emits at least one snapshot. -/
theorem runTasks_ne_nil (env : CopyEnv) (onDup : OnDuplicate)
    (files : List CopyTask) (i : Nat) (p : CopyProgress) :
    runTasks env onDup files i p ≠ [] := by
  cases files with
  | nil => simp [runTasks]
  | cons f rest =>
    unfold runTasks
    cases htb : taskBody env.features onDup env.renameFuel (env.taskEnv i) f
        { p with currentFile := some f.sourcePath } <;> simp_all

/-- Every snapshot the loop emits keeps the run id and totals of the state
it was entered with, and its counters dominate that state's counters. -/
theorem runTasks_mem_facts (env : CopyEnv) (onDup : OnDuplicate) :
    ∀ (files : List CopyTask) (i : Nat) (p : CopyProgress),
    ∀ s ∈ runTasks env onDup files i p,
      s.id = p.id ∧ s.totalFiles = p.totalFiles ∧ s.totalBytes = p.totalBytes ∧
      p.copiedFiles ≤ s.copiedFiles ∧ p.skippedFiles ≤ s.skippedFiles ∧
      p.copiedBytes ≤ s.copiedBytes
  | [], i, p, s, hs => by
    simp only [runTasks, List.mem_singleton] at hs
    subst hs
    simp
  | file :: rest, i, p, s, hs => by
    unfold runTasks at hs
    cases htb : taskBody env.features onDup env.renameFuel (env.taskEnv i) file
        { p with currentFile := some file.sourcePath } with
    | error pe =>
      rw [htb] at hs
      simp only [List.mem_cons, List.mem_singleton, List.not_mem_nil, or_false] at hs
      rcases hs with hs | hs
      · subst hs; simp
      · subst hs
        have hf := taskBody_error_facts htb
        refine ⟨?_, ?_, ?_, ?_, ?_, ?_⟩ <;> simp_all
    | ok p2 =>
      rw [htb] at hs
      simp only [List.mem_cons] at hs
      have hf := taskBody_ok_facts htb
      rcases hs with hs | hs | hs
      · subst hs; simp
      · subst hs
        refine ⟨?_, ?_, ?_, ?_, ?_, ?_⟩ <;> simp_all <;> omega
      · have ih := runTasks_mem_facts env onDup rest (i + 1) p2 s hs
        obtain ⟨size, hst, hbytes⟩ := hf.2.2.2.2.2.2.2.2.2.2
        refine ⟨?_, ?_, ?_, ?_, ?_, ?_⟩ <;> simp_all <;> omega

/-! ## Concrete fixtures for witness runs -/

/-- All feature flags off (the schema defaults). -/
def featsOff : Features :=
  { copyHistory := false, smartOrganization := false,
    contentDuplicates := false, scheduledActions := false }

/-- Oracle of a 4-byte source whose copy succeeds and whose destination
does not exist. -/
def teSimple : TaskEnv :=
  { statPre := some 4, statSource := Except.ok 4,
    organizedPath := Except.error "organization unused",
    destExists := fun _ => false,
    isDup := fun _ => Except.ok false,
    hashSource := Except.ok "hash",
    copyResult := fun _ => Except.ok () }

/-- Oracle of a source that has vanished: both stats fail. -/
def teNoSource : TaskEnv :=
  { teSimple with
    statPre := none,
    statSource := Except.error "ENOENT: no such file or directory" }

/-- Oracle of a 4-byte source whose destination already exists. -/
def teDestTaken : TaskEnv :=
  { teSimple with destExists := fun _ => true }

/-- Run environment where every task succeeds. -/
def envSimple : CopyEnv :=
  { id := "run-1", features := featsOff, taskEnv := fun _ => teSimple,
    renameFuel := 100 }

/-- Run environment whose second task's source is inaccessible. -/
def envFailSecond : CopyEnv :=
  { envSimple with taskEnv := fun i => if i = 1 then teNoSource else teSimple }

/-- One-task request. -/
def reqOne : CopyRequest :=
  { files := [{ sourcePath := "/usb/a.txt", destinationPath := "/dst/a.txt" }],
    onDuplicate := none }

/-- Three-task request. -/
def reqThree : CopyRequest :=
  { files := [{ sourcePath := "/usb/a.txt", destinationPath := "/dst/a.txt" },
              { sourcePath := "/usb/b.txt", destinationPath := "/dst/b.txt" },
              { sourcePath := "/usb/c.txt", destinationPath := "/dst/c.txt" }],
    onDuplicate := none }

/-- Terminal snapshot of the one-task run under `envSimple`. -/
def snapDone : CopyProgress :=
  { id := "run-1", status := Status.completed, totalFiles := 1, copiedFiles := 1,
    skippedFiles := 0, totalBytes := 4, copiedBytes := 4, currentFile := none,
    error := none }

/-- Terminal snapshot of the three-task run under `envFailSecond`: the
second task's stat throws. -/
def snapErrAtB : CopyProgress :=
  { id := "run-1", status := Status.error, totalFiles := 3, copiedFiles := 1,
    skippedFiles := 0, totalBytes := 8, copiedBytes := 4,
    currentFile := some "/usb/b.txt",
    error := some "ENOENT: no such file or directory" }


/-- Run environment where every destination already exists. -/
def envDestTaken : CopyEnv :=
  { envSimple with taskEnv := fun _ => teDestTaken }

/-- A mid-run progress state used to witness the skip behaviour. -/
def pStart : CopyProgress :=
  { id := "run-1", status := Status.pending, totalFiles := 1, copiedFiles := 0,
    skippedFiles := 0, totalBytes := 4, copiedBytes := 0, currentFile := none,
    error := none }

/-! ## Trace-level lemmas -/

theorem runTasks_sum_le (env : CopyEnv) (onDup : OnDuplicate) :
    ∀ (files : List CopyTask) (i : Nat) (p : CopyProgress),
    p.copiedFiles + p.skippedFiles + files.length ≤ p.totalFiles →
    ∀ s ∈ runTasks env onDup files i p, s.copiedFiles + s.skippedFiles ≤ s.totalFiles
  | [], i, p, hsum, s, hs => by
    simp only [runTasks, List.mem_singleton] at hs
    subst hs
    simp only [List.length_nil] at hsum
    simpa using hsum
  | file :: rest, i, p, hsum, s, hs => by
    unfold runTasks at hs
    cases htb : taskBody env.features onDup env.renameFuel (env.taskEnv i) file
        { p with currentFile := some file.sourcePath } with
    | error pe =>
      rw [htb] at hs
      simp only [List.mem_cons, List.mem_singleton, List.not_mem_nil, or_false] at hs
      simp only [List.length_cons] at hsum
      rcases hs with hs | hs
      · subst hs; simp; omega
      · subst hs
        have hf := taskBody_error_facts htb
        simp_all
        omega
    | ok p2 =>
      rw [htb] at hs
      simp only [List.mem_cons] at hs
      simp only [List.length_cons] at hsum
      have hf := taskBody_ok_facts htb
      rcases hs with hs | hs | hs
      · subst hs; simp; omega
      · subst hs; simp_all; omega
      · exact runTasks_sum_le env onDup rest (i + 1) p2 (by simp_all; omega) s hs



theorem snapLE_trans {a b c : CopyProgress} (h1 : snapLE a b) (h2 : snapLE b c) :
    snapLE a c := by
  obtain ⟨x1, y1, z1⟩ := h1
  obtain ⟨x2, y2, z2⟩ := h2
  exact ⟨le_trans x1 x2, le_trans y1 y2, le_trans z1 z2⟩

theorem runTasks_mem_snapLE (env : CopyEnv) (onDup : OnDuplicate)
    (files : List CopyTask) (i : Nat) (p : CopyProgress) :
    ∀ s ∈ runTasks env onDup files i p, snapLE p s := by
  intro s hs
  have h := runTasks_mem_facts env onDup files i p s hs
  exact ⟨h.2.2.2.1, h.2.2.2.2.1, h.2.2.2.2.2⟩

theorem runTasks_pairwise (env : CopyEnv) (onDup : OnDuplicate) :
    ∀ (files : List CopyTask) (i : Nat) (p : CopyProgress),
    List.Pairwise snapLE (runTasks env onDup files i p)
  | [], i, p => by simp [runTasks]
  | file :: rest, i, p => by
    unfold runTasks
    cases htb : taskBody env.features onDup env.renameFuel (env.taskEnv i) file
        { p with currentFile := some file.sourcePath } with
    | error pe =>
      have hf := taskBody_error_facts htb
      refine List.pairwise_cons.mpr ⟨?_, ?_⟩
      · intro s hs
        simp at hs
        subst hs
        refine ⟨?_, ?_, ?_⟩ <;> simp_all
      · simp
    | ok p2 =>
      have hf := taskBody_ok_facts htb
      obtain ⟨size, hst, hbytes⟩ := hf.2.2.2.2.2.2.2.2.2.2
      have hle12 : snapLE { p with currentFile := some file.sourcePath } p2 := by
        refine ⟨?_, ?_, ?_⟩ <;> simp_all
      refine List.pairwise_cons.mpr ⟨?_, List.pairwise_cons.mpr ⟨?_, ?_⟩⟩
      · intro s hs
        simp only [List.mem_cons] at hs
        rcases hs with hs | hs
        · subst hs; exact hle12
        · exact snapLE_trans hle12 (runTasks_mem_snapLE env onDup rest (i + 1) p2 s hs)
      · exact runTasks_mem_snapLE env onDup rest (i + 1) p2
      · exact runTasks_pairwise env onDup rest (i + 1) p2

theorem runTasks_chain (env : CopyEnv) (onDup : OnDuplicate) :
    ∀ (files : List CopyTask) (i : Nat) (p : CopyProgress),
    List.Chain copyCountStep p (runTasks env onDup files i p)
  | [], i, p => by
    simp only [runTasks]
    exact List.Chain.cons (Or.inl rfl) List.Chain.nil
  | file :: rest, i, p => by
    unfold runTasks
    cases htb : taskBody env.features onDup env.renameFuel (env.taskEnv i) file
        { p with currentFile := some file.sourcePath } with
    | error pe =>
      have hf := taskBody_error_facts htb
      exact List.Chain.cons (Or.inl rfl)
        (List.Chain.cons (Or.inl (by simp_all)) List.Chain.nil)
    | ok p2 =>
      have hf := taskBody_ok_facts htb
      refine List.Chain.cons (Or.inl rfl) (List.Chain.cons ?_ ?_)
      · have h1 := hf.2.2.2.2.2.2.2.1
        have h2 := hf.2.2.2.2.2.2.2.2.1
        simp only [] at h1 h2
        unfold copyCountStep
        omega
      · exact runTasks_chain env onDup rest (i + 1) p2

example (a b : Nat) : ([a, b] : List Nat).getLast? = some b := by simp
example (a b : Nat) (l : List Nat) : (a :: b :: l).getLast? = (b :: l).getLast? := List.getLast?_cons_cons
example (a : Nat) : ([a] : List Nat).getLast? = some a := by simp


theorem runTasks_last_error_shape (env : CopyEnv) (onDup : OnDuplicate) :
    ∀ (files : List CopyTask) (i : Nat) (p : CopyProgress) (s : CopyProgress),
    (runTasks env onDup files i p).getLast? = some s → s.status = Status.error →
    s.error.isSome = true ∧
    ∃ j, ∃ hj : j < files.length,
      (runTasks env onDup files i p).length = 2 * j + 2 ∧
      s.currentFile = some ((files.get ⟨j, hj⟩).sourcePath) ∧
      s.copiedFiles + s.skippedFiles ≤ p.copiedFiles + p.skippedFiles + j + 1
  | [], i, p, s, hlast, herr => by
    simp only [runTasks, List.getLast?_singleton, Option.some_inj] at hlast
    subst hlast
    simp at herr
  | file :: rest, i, p, s, hlast, herr => by
    unfold runTasks at hlast ⊢
    cases htb : taskBody env.features onDup env.renameFuel (env.taskEnv i) file
        { p with currentFile := some file.sourcePath } with
    | error pe =>
      rw [htb] at hlast
      simp only [List.getLast?_cons_cons, List.getLast?_singleton, Option.some_inj] at hlast
      subst hlast
      obtain ⟨-, -, -, -, hcur, hsome, hcop, hsk1, hsk2, -⟩ := taskBody_error_facts htb
      simp at hcur hcop hsk2
      refine ⟨hsome, 0, by simp, ?_, ?_, ?_⟩
      · simp
      · simpa using hcur
      · omega
    | ok p2 =>
      rw [htb] at hlast
      simp only [] at hlast
      obtain ⟨c, l2, hrt⟩ :=
        List.exists_cons_of_ne_nil (runTasks_ne_nil env onDup rest (i + 1) p2)
      rw [hrt, List.getLast?_cons_cons, List.getLast?_cons_cons, ← hrt] at hlast
      obtain ⟨hsome, j, hj, hlen, hcur, hsum⟩ :=
        runTasks_last_error_shape env onDup rest (i + 1) p2 s hlast herr
      obtain ⟨-, -, -, -, -, -, hcnt, -, -, -, -⟩ := taskBody_ok_facts htb
      simp at hcnt
      refine ⟨hsome, j + 1, by simpa using Nat.succ_lt_succ hj, ?_, ?_, ?_⟩
      · simp only [List.length_cons]
        rw [hlen]
        omega
      · simpa using hcur
      · omega



theorem runTasks_last_completed_sum (env : CopyEnv) (onDup : OnDuplicate) :
    ∀ (files : List CopyTask) (i : Nat) (p : CopyProgress) (s : CopyProgress),
    p.copiedFiles + p.skippedFiles + files.length = p.totalFiles →
    (runTasks env onDup files i p).getLast? = some s → s.status = Status.completed →
    s.copiedFiles + s.skippedFiles = s.totalFiles
  | [], i, p, s, hsum, hlast, hc => by
    simp only [runTasks, List.getLast?_singleton, Option.some_inj] at hlast
    subst hlast
    simp only [List.length_nil] at hsum
    simpa using hsum
  | file :: rest, i, p, s, hsum, hlast, hc => by
    unfold runTasks at hlast
    cases htb : taskBody env.features onDup env.renameFuel (env.taskEnv i) file
        { p with currentFile := some file.sourcePath } with
    | error pe =>
      rw [htb] at hlast
      simp only [List.getLast?_cons_cons, List.getLast?_singleton, Option.some_inj] at hlast
      subst hlast
      have hst := (taskBody_error_facts htb).2.1
      rw [hst] at hc
      cases hc
    | ok p2 =>
      rw [htb] at hlast
      simp only [] at hlast
      obtain ⟨c, l2, hrt⟩ :=
        List.exists_cons_of_ne_nil (runTasks_ne_nil env onDup rest (i + 1) p2)
      rw [hrt, List.getLast?_cons_cons, List.getLast?_cons_cons, ← hrt] at hlast
      obtain ⟨-, -, htf, -, -, -, hcnt, -, -, -, -⟩ := taskBody_ok_facts htb
      simp only [List.length_cons] at hsum
      simp at htf hcnt
      exact runTasks_last_completed_sum env onDup rest (i + 1) p2 s
        (by omega) hlast hc

theorem runTasks_last_completed_bytes (env : CopyEnv) (onDup : OnDuplicate) :
    ∀ (files : List CopyTask) (i : Nat) (p : CopyProgress) (s : CopyProgress),
    (∀ k, k < files.length →
      (env.taskEnv (i + k)).statPre = ((env.taskEnv (i + k)).statSource).toOption) →
    (runTasks env onDup files i p).getLast? = some s → s.status = Status.completed →
    s.copiedBytes = p.copiedBytes + sumFrom env i files.length
  | [], i, p, s, hstable, hlast, hc => by
    simp only [runTasks, List.getLast?_singleton, Option.some_inj] at hlast
    subst hlast
    simp [sumFrom]
  | file :: rest, i, p, s, hstable, hlast, hc => by
    unfold runTasks at hlast
    cases htb : taskBody env.features onDup env.renameFuel (env.taskEnv i) file
        { p with currentFile := some file.sourcePath } with
    | error pe =>
      rw [htb] at hlast
      simp only [List.getLast?_cons_cons, List.getLast?_singleton, Option.some_inj] at hlast
      subst hlast
      have hst := (taskBody_error_facts htb).2.1
      rw [hst] at hc
      cases hc
    | ok p2 =>
      rw [htb] at hlast
      simp only [] at hlast
      obtain ⟨c, l2, hrt⟩ :=
        List.exists_cons_of_ne_nil (runTasks_ne_nil env onDup rest (i + 1) p2)
      rw [hrt, List.getLast?_cons_cons, List.getLast?_cons_cons, ← hrt] at hlast
      obtain ⟨size, hsz, hbytes⟩ := (taskBody_ok_facts htb).2.2.2.2.2.2.2.2.2.2
      simp at hbytes
      have hpre : (env.taskEnv i).statPre = some size := by
        have h0 := hstable 0 (by simp)
        simpa [hsz] using h0
      have ih := runTasks_last_completed_bytes env onDup rest (i + 1) p2 s
        (fun k hk => by
          have := hstable (k + 1) (by simpa using Nat.succ_lt_succ hk)
          simpa [Nat.add_assoc, Nat.add_comm 1 k] using this)
        hlast hc
      rw [ih, hbytes]
      simp only [List.length_cons, sumFrom, hpre, Option.getD_some]
      omega



theorem sumFrom_succ_right (env : CopyEnv) :
    ∀ (n i : Nat), sumFrom env i (n + 1) =
      sumFrom env i n + ((env.taskEnv (i + n)).statPre.getD 0)
  | 0, i => by simp [sumFrom]
  | n + 1, i => by
    rw [sumFrom, sumFrom_succ_right env n (i + 1), sumFrom]
    have harg : i + 1 + n = i + (n + 1) := by omega
    rw [harg]
    omega

theorem prePassTotal_eq_sumFrom (env : CopyEnv) :
    ∀ n : Nat, prePassTotal env n = sumFrom env 0 n
  | 0 => rfl
  | n + 1 => by
    unfold prePassTotal
    rw [List.range_succ, List.foldl_append]
    have h := prePassTotal_eq_sumFrom env n
    unfold prePassTotal at h
    rw [h, sumFrom_succ_right env n 0]
    simp

theorem chain_getLast_incCount :
    ∀ (l : List CopyProgress) (a : CopyProgress),
    List.Chain copyCountStep a l → ∀ s, (a :: l).getLast? = some s →
    s.copiedFiles = a.copiedFiles + incCount (a :: l)
  | [], a, hch, s, hlast => by
    simp only [List.getLast?_singleton, Option.some_inj] at hlast
    subst hlast
    simp [incCount]
  | b :: l, a, hch, s, hlast => by
    rw [List.chain_cons] at hch
    obtain ⟨hab, hch2⟩ := hch
    rw [List.getLast?_cons_cons] at hlast
    have ih := chain_getLast_incCount l b hch2 s hlast
    rcases hab with hab | hab
    · rw [incCount, if_neg (by omega)]
      omega
    · rw [incCount, if_pos (by omega)]
      omega

/-! ## Claim theorems -/

/-- C2: in every emitted snapshot `copiedFiles + skippedFiles ≤ totalFiles`;
`copiedFiles`, `skippedFiles` and `copiedBytes` are monotonically
non-decreasing along the emitted sequence; `totalBytes` is the same in every
snapshot (the pre-pass total); and in a terminal snapshot with status
`completed`, `copiedFiles + skippedFiles = totalFiles` and — assuming each
source's size is stable between the pre-pass stat and the per-task stat —
`copiedBytes ≤ totalBytes`. -/
theorem executeCopy_progress_invariants (req : CopyRequest) (env : CopyEnv) :
    (∀ s ∈ executeCopy req env, s.copiedFiles + s.skippedFiles ≤ s.totalFiles) ∧
    (∀ i j, ∀ hi : i < (executeCopy req env).length,
      ∀ hj : j < (executeCopy req env).length, i ≤ j →
      ((executeCopy req env).get ⟨i, hi⟩).copiedFiles ≤
          ((executeCopy req env).get ⟨j, hj⟩).copiedFiles ∧
        ((executeCopy req env).get ⟨i, hi⟩).skippedFiles ≤
          ((executeCopy req env).get ⟨j, hj⟩).skippedFiles ∧
        ((executeCopy req env).get ⟨i, hi⟩).copiedBytes ≤
          ((executeCopy req env).get ⟨j, hj⟩).copiedBytes) ∧
    (∀ s ∈ executeCopy req env, s.totalBytes = prePassTotal env req.files.length) ∧
    (∀ s, (executeCopy req env).getLast? = some s → s.status = Status.completed →
      s.copiedFiles + s.skippedFiles = s.totalFiles ∧
      ((∀ k, k < req.files.length →
          (env.taskEnv k).statPre = ((env.taskEnv k).statSource).toOption) →
        s.copiedBytes ≤ s.totalBytes)) := by
  set onDup := req.onDuplicate.getD OnDuplicate.skip with honDup
  set p0 : CopyProgress :=
    { id := env.id, status := Status.pending, totalFiles := req.files.length,
      copiedFiles := 0, skippedFiles := 0,
      totalBytes := prePassTotal env req.files.length, copiedBytes := 0,
      currentFile := none, error := none } with hp0
  have htrace : executeCopy req env =
      { p0 with status := Status.copying } :: runTasks env onDup req.files 0 p0 := rfl
  have hpair : List.Pairwise snapLE (executeCopy req env) := by
    rw [htrace]
    refine List.pairwise_cons.mpr ⟨?_, runTasks_pairwise env onDup req.files 0 p0⟩
    intro s hs
    exact runTasks_mem_snapLE env onDup req.files 0 p0 s hs
  refine ⟨?_, ?_, ?_, ?_⟩
  · intro s hs
    rw [htrace, List.mem_cons] at hs
    rcases hs with hs | hs
    · subst hs; simp
    · exact runTasks_sum_le env onDup req.files 0 p0 (by simp) s hs
  · intro i j hi hj hij
    rcases Nat.eq_or_lt_of_le hij with heq | hlt
    · subst heq
      exact ⟨le_refl _, le_refl _, le_refl _⟩
    · have h := List.pairwise_iff_get.mp hpair ⟨i, hi⟩ ⟨j, hj⟩ hlt
      exact h
  · intro s hs
    rw [htrace, List.mem_cons] at hs
    rcases hs with hs | hs
    · subst hs; rfl
    · exact (runTasks_mem_facts env onDup req.files 0 p0 s hs).2.2.1
  · intro s hlast hc
    rw [htrace] at hlast
    obtain ⟨c, l2, hrt⟩ :=
      List.exists_cons_of_ne_nil (runTasks_ne_nil env onDup req.files 0 p0)
    rw [hrt, List.getLast?_cons_cons, ← hrt] at hlast
    have hsum := runTasks_last_completed_sum env onDup req.files 0 p0 s
      (by simp) hlast hc
    refine ⟨hsum, ?_⟩
    intro hstable
    have hbytes := runTasks_last_completed_bytes env onDup req.files 0 p0 s
      (fun k hk => by simpa using hstable k hk) hlast hc
    have hmem : s ∈ runTasks env onDup req.files 0 p0 := by
      obtain ⟨hne, hseq⟩ := List.mem_getLast?_eq_getLast hlast
      rw [hseq]
      exact List.getLast_mem hne
    have htb : s.totalBytes = prePassTotal env req.files.length :=
      (runTasks_mem_facts env onDup req.files 0 p0 s hmem).2.2.1
    rw [hbytes, htb, prePassTotal_eq_sumFrom]
    simp

/-- C3: when some task fails (for any reason, including an inaccessible
source), the run ends with an error snapshot as the very last emission: the
error message is recorded, the trace stops at the failing task — its length
is `2j + 3` for the failing position `j`, against `2n + 2` for a full run,
so no later task is ever attempted — `currentFile` names the failing task's
source, and `copiedFiles` equals the number of emitted steps that completed
a file copy strictly before the failure. -/
theorem executeCopy_error_stops_run (req : CopyRequest) (env : CopyEnv)
    (s : CopyProgress) (hlast : (executeCopy req env).getLast? = some s)
    (herr : s.status = Status.error) :
    s.error.isSome = true ∧
    (∃ j, ∃ hj : j < req.files.length,
      (executeCopy req env).length = 2 * j + 3 ∧
      s.currentFile = some ((req.files.get ⟨j, hj⟩).sourcePath) ∧
      s.copiedFiles + s.skippedFiles ≤ j + 1) ∧
    s.copiedFiles = incCount (executeCopy req env) := by
  set onDup := req.onDuplicate.getD OnDuplicate.skip with honDup
  set p0 : CopyProgress :=
    { id := env.id, status := Status.pending, totalFiles := req.files.length,
      copiedFiles := 0, skippedFiles := 0,
      totalBytes := prePassTotal env req.files.length, copiedBytes := 0,
      currentFile := none, error := none } with hp0
  have htrace : executeCopy req env =
      { p0 with status := Status.copying } :: runTasks env onDup req.files 0 p0 := rfl
  obtain ⟨c, l2, hrt⟩ :=
    List.exists_cons_of_ne_nil (runTasks_ne_nil env onDup req.files 0 p0)
  have hlast2 : (runTasks env onDup req.files 0 p0).getLast? = some s := by
    rw [htrace, hrt, List.getLast?_cons_cons, ← hrt] at hlast
    exact hlast
  obtain ⟨hsome, j, hj, hlen, hcur, hsum⟩ :=
    runTasks_last_error_shape env onDup req.files 0 p0 s hlast2 herr
  refine ⟨hsome, ⟨j, hj, ?_, hcur, ?_⟩, ?_⟩
  · rw [htrace, List.length_cons, hlen]
  · simpa using hsum
  · have hchain0 := runTasks_chain env onDup req.files 0 p0
    rw [hrt] at hchain0
    rw [List.chain_cons] at hchain0
    have hchain : List.Chain copyCountStep { p0 with status := Status.copying } (c :: l2) :=
      List.chain_cons.mpr ⟨hchain0.1, hchain0.2⟩
    have hcount := chain_getLast_incCount (c :: l2) { p0 with status := Status.copying }
      hchain s (by rw [htrace, hrt] at hlast; exact hlast)
    rw [htrace, hrt]
    simpa using hcount

/-- Witness for C2: a concrete completed one-task run satisfying the
terminal-state conclusions of `executeCopy_progress_invariants`. -/
theorem executeCopy_progress_invariants_witness :
    (executeCopy reqOne envSimple).getLast? = some snapDone ∧
    snapDone.copiedFiles + snapDone.skippedFiles = snapDone.totalFiles ∧
    snapDone.copiedBytes ≤ snapDone.totalBytes := by
  have h := (executeCopy_progress_invariants reqOne envSimple).2.2.2 snapDone
    (by decide) (by decide)
  exact ⟨by decide, h.1, h.2 (fun k hk => rfl)⟩

/-- Witness for C3: a three-task run whose second source is inaccessible
ends in the error snapshot after five emissions (the third task untried),
with `copiedFiles = 1` counting the single successful copy. -/
theorem executeCopy_error_stops_run_witness :
    (executeCopy reqThree envFailSecond).getLast? = some snapErrAtB ∧
    snapErrAtB.error.isSome = true ∧
    snapErrAtB.copiedFiles = incCount (executeCopy reqThree envFailSecond) ∧
    (executeCopy reqThree envFailSecond).length = 5 := by
  have h := executeCopy_error_stops_run reqThree envFailSecond snapErrAtB
    (by decide) (by decide)
  exact ⟨by decide, h.1, h.2.2, by decide⟩

/-- C4 counterexample: for the empty task list, `executeCopy` emits two
snapshots — a `copying` one and then the `completed` one — not exactly one
snapshot as claimed. -/
theorem executeCopy_empty_counterexample :
    executeCopy { files := [], onDuplicate := none } envSimple =
      [{ id := "run-1", status := Status.copying, totalFiles := 0, copiedFiles := 0,
         skippedFiles := 0, totalBytes := 0, copiedBytes := 0, currentFile := none,
         error := none },
       { id := "run-1", status := Status.completed, totalFiles := 0, copiedFiles := 0,
         skippedFiles := 0, totalBytes := 0, copiedBytes := 0, currentFile := none,
         error := none }] ∧
    (executeCopy { files := [], onDuplicate := none } envSimple).length ≠ 1 := by
  exact ⟨by decide, by decide⟩

/-- C4 (amended): for the empty task list, `executeCopy` emits exactly two
snapshots: the first with status `copying`, the terminal with status
`completed`, both with
`totalFiles = copiedFiles = skippedFiles = totalBytes = copiedBytes = 0`. -/
theorem executeCopy_empty_trace (env : CopyEnv) (o : Option OnDuplicate) :
    executeCopy { files := [], onDuplicate := o } env =
      [{ id := env.id, status := Status.copying, totalFiles := 0, copiedFiles := 0,
         skippedFiles := 0, totalBytes := 0, copiedBytes := 0, currentFile := none,
         error := none },
       { id := env.id, status := Status.completed, totalFiles := 0, copiedFiles := 0,
         skippedFiles := 0, totalBytes := 0, copiedBytes := 0, currentFile := none,
         error := none }] := rfl

/-- C10: the status trace of a successful one-task run.  The first emitted
snapshot has status `copying`, but — contrary to the claim and to spec
§4.4 step 1, which requires per-task snapshots to carry status `copying` —
both mid-run snapshots are emitted with status `pending`: only the first
yield overrides the status, and the mutable record keeps its initial
`pending` value until the terminal transition. -/
theorem executeCopy_emits_pending_midrun :
    (executeCopy reqOne envSimple).map (fun s => s.status) =
      [Status.copying, Status.pending, Status.pending, Status.completed] := by
  decide

/-- C5: with duplicate policy `skip` and the content-duplicate stage off,
a task whose (effective) destination exists is skipped on existence alone:
whatever the contents of source and destination and whatever `copyFile`
would do (the oracle's `isDup`, `hashSource` and `copyResult` are
unconstrained, so the destination is never written), the engine credits the
source size to `copiedBytes`, increments `skippedFiles` by one, emits that
snapshot, and continues with the next task. -/
theorem runTasks_skip_existing (env : CopyEnv) (file : CopyTask)
    (rest : List CopyTask) (i : Nat) (p : CopyProgress) (size : Nat) (dp : String)
    (hcd : env.features.contentDuplicates = false)
    (hstat : (env.taskEnv i).statSource = Except.ok size)
    (hdp : (if env.features.smartOrganization then (env.taskEnv i).organizedPath
        else Except.ok file.destinationPath) = Except.ok dp)
    (hexists : (env.taskEnv i).destExists dp = true) :
    runTasks env OnDuplicate.skip (file :: rest) i p =
      { p with currentFile := some file.sourcePath }
        :: creditSkip { p with currentFile := some file.sourcePath } size
        :: runTasks env OnDuplicate.skip rest (i + 1)
          (creditSkip { p with currentFile := some file.sourcePath } size) := by
  have htb : taskBody env.features OnDuplicate.skip env.renameFuel (env.taskEnv i) file
      { p with currentFile := some file.sourcePath } =
      Except.ok (creditSkip { p with currentFile := some file.sourcePath } size) := by
    unfold taskBody
    rw [hstat]
    simp only []
    rw [hdp]
    simp only [hcd, Bool.false_and, if_false, hexists]
    simp
  rw [runTasks, htb]

/-- Witness for C5: a one-task run against an existing destination skips
the file (4 bytes credited, one skip) and proceeds to the empty tail. -/
theorem runTasks_skip_existing_witness :
    runTasks envDestTaken OnDuplicate.skip
        [{ sourcePath := "/usb/a.txt", destinationPath := "/dst/a.txt" }] 0 pStart =
      { pStart with currentFile := some "/usb/a.txt" }
        :: creditSkip { pStart with currentFile := some "/usb/a.txt" } 4
        :: runTasks envDestTaken OnDuplicate.skip [] 1
          (creditSkip { pStart with currentFile := some "/usb/a.txt" } 4) ∧
    runTasks envDestTaken OnDuplicate.skip
        [{ sourcePath := "/usb/a.txt", destinationPath := "/dst/a.txt" }] 0 pStart =
      [{ pStart with currentFile := some "/usb/a.txt" },
       { pStart with
         currentFile := some "/usb/a.txt", copiedBytes := 4, skippedFiles := 1 },
       { pStart with
         status := Status.completed, copiedBytes := 4, skippedFiles := 1 }] := by
  constructor
  · exact runTasks_skip_existing envDestTaken
      { sourcePath := "/usb/a.txt", destinationPath := "/dst/a.txt" } [] 0 pStart 4
      "/dst/a.txt" rfl rfl rfl rfl
  · decide

/-- The probing loop of `getUniqueDestPath`, related to the candidate
sequence `destPath, base_1.ext, base_2.ext, …`. -/
theorem uniqueLoop_spec (destPath : String) (ex : String → Bool) :
    ∀ (fuel j K : Nat), j ≤ K → K - j < fuel →
    (∀ m, m < K → ex (renameCandidate destPath m) = true) →
    ex (renameCandidate destPath K) = false →
    uniqueLoop (nodeDirname destPath) (nodeBasename destPath (nodeExtname destPath))
      (nodeExtname destPath) ex fuel (j + 1) (renameCandidate destPath j) =
      renameCandidate destPath K
  | 0, j, K, hjK, hfuel, hbusy, hfree => by omega
  | fuel + 1, j, K, hjK, hfuel, hbusy, hfree => by
    rw [uniqueLoop]
    by_cases hex : ex (renameCandidate destPath j) = true
    · have hjlt : j < K := by
        rcases Nat.lt_or_ge j K with h | h
        · exact h
        · have hje : j = K := by omega
          rw [hje] at hex
          rw [hex] at hfree
          cases hfree
      rw [if_pos hex]
      have hcand : nodeJoin (nodeDirname destPath)
          (nodeBasename destPath (nodeExtname destPath) ++ "_" ++ toString (j + 1)
            ++ nodeExtname destPath) = renameCandidate destPath (j + 1) := rfl
      rw [hcand]
      exact uniqueLoop_spec destPath ex fuel (j + 1) K hjlt (by omega) hbusy hfree
    · rw [if_neg hex]
      have hjeq : j = K := by
        rcases Nat.lt_or_ge j K with h | h
        · have hb := hbusy j h
          rw [hb] at hex
          cases hex rfl
        · omega
      rw [hjeq]

/-- C6: under the rename policy, `getUniqueDestPath` probes the candidates
`destPath, base_1.ext, base_2.ext, …` in increasing order and returns the
first one that does not exist (given enough fuel for the probing loop); in
particular, when `photo.jpg` and `photo_1.jpg` both exist, a copy targeting
`/out/photo.jpg` is directed to `/out/photo_2.jpg`. -/
theorem getUniqueDestPath_first_free :
    (∀ (ex : String → Bool) (destPath : String) (fuel K : Nat),
      K < fuel →
      (∀ m, m < K → ex (renameCandidate destPath m) = true) →
      ex (renameCandidate destPath K) = false →
      getUniqueDestPath fuel ex destPath = renameCandidate destPath K ∧
      ex (getUniqueDestPath fuel ex destPath) = false) ∧
    getUniqueDestPath 10
      (fun pth => pth == "/out/photo.jpg" || pth == "/out/photo_1.jpg")
      "/out/photo.jpg" = "/out/photo_2.jpg" := by
  constructor
  · intro ex destPath fuel K hK hbusy hfree
    have h := uniqueLoop_spec destPath ex fuel 0 K (Nat.zero_le K) (by omega) hbusy hfree
    refine ⟨h, ?_⟩
    have hgu : getUniqueDestPath fuel ex destPath = renameCandidate destPath K := h
    rw [hgu]
    exact hfree
  · decide

/-- Witness for C6: the `photo.jpg`/`photo_1.jpg` scenario instantiating
the general first-free-candidate property at `K = 2`. -/
theorem getUniqueDestPath_first_free_witness :
    getUniqueDestPath 10
        (fun pth => pth == "/out/photo.jpg" || pth == "/out/photo_1.jpg")
        "/out/photo.jpg" = renameCandidate "/out/photo.jpg" 2 ∧
    renameCandidate "/out/photo.jpg" 2 = "/out/photo_2.jpg" := by
  refine ⟨(getUniqueDestPath_first_free.1 _ _ 10 2 (by decide) ?_ (by decide)).1, by decide⟩
  intro m hm
  interval_cases m <;> decide

/-- C1: for every path and rule list whose enabled rules carry well-formed
(non-empty) patterns, `matchFile` returns exactly the claim-side
`matchFileSpec`: the first enabled rule by list position whose pattern
matches under the Rule profile (case-insensitive, dotfiles excluded), with
the rule's destination resolved through `expandPath`; `none` when no
enabled rule matches, which happens exactly when every enabled rule's
pattern rejects the path — so a disabled rule is never the result even
when its pattern matches. -/
theorem matchFile_first_enabled (env : PathEnv) (path : String) :
    ∀ rules : List CopyRule,
    (∀ r ∈ rules, r.enabled = true → r.matchPat ≠ "") →
    matchFile env path rules = Except.ok (matchFileSpec env path rules) ∧
    (∀ m, matchFileSpec env path rules = some m →
      m.rule.enabled = true ∧ globMatch m.rule.matchPat ruleOpts path = true ∧
      m.destination = expandPath env m.rule.destination ∧ m.rule ∈ rules) ∧
    (matchFileSpec env path rules = none ↔
      ∀ r ∈ rules, r.enabled = true → globMatch r.matchPat ruleOpts path = false)
  | [], hwf => by
    refine ⟨rfl, ?_, ?_⟩
    · intro m hm
      simp [matchFileSpec] at hm
    · simp [matchFileSpec]
  | rule :: rest, hwf => by
    have hwfrest : ∀ r ∈ rest, r.enabled = true → r.matchPat ≠ "" :=
      fun r hr => hwf r (List.mem_cons_of_mem rule hr)
    obtain ⟨ih1, ih2, ih3⟩ := matchFile_first_enabled env path rest hwfrest
    by_cases hen : rule.enabled = true
    · have hne : rule.matchPat ≠ "" := hwf rule (List.mem_cons_self rule rest) hen
      by_cases hm : globMatch rule.matchPat ruleOpts path = true
      · have heq : matchFile env path (rule :: rest) =
            Except.ok (some { rule := rule, destination := expandPath env rule.destination }) := by
          rw [matchFile]
          simp only [hen, Bool.not_true, if_false, picomatchCompile, if_neg hne]
          simp [hm]
        have hspec : matchFileSpec env path (rule :: rest) =
            some { rule := rule, destination := expandPath env rule.destination } := by
          unfold matchFileSpec
          rw [List.find?_cons_of_pos _ (by simp [hen, hm])]
          simp
        refine ⟨by rw [heq, hspec], ?_, ?_⟩
        · intro m hmm
          rw [hspec] at hmm
          cases hmm
          exact ⟨hen, hm, rfl, List.mem_cons_self rule rest⟩
        · rw [hspec]
          constructor
          · intro h; cases h
          · intro hall
            have := hall rule (List.mem_cons_self rule rest) hen
            rw [hm] at this
            cases this
      · have hmf : globMatch rule.matchPat ruleOpts path = false := by
          simpa using hm
        have heq : matchFile env path (rule :: rest) = matchFile env path rest := by
          rw [matchFile]
          simp only [hen, Bool.not_true, if_false, picomatchCompile, if_neg hne]
          simp [hmf]
        have hspec : matchFileSpec env path (rule :: rest) = matchFileSpec env path rest := by
          unfold matchFileSpec
          rw [List.find?_cons_of_neg _ (by simp [hmf])]
        refine ⟨by rw [heq, hspec, ih1], ?_, ?_⟩
        · intro m hmm
          rw [hspec] at hmm
          obtain ⟨h1, h2, h3, h4⟩ := ih2 m hmm
          exact ⟨h1, h2, h3, List.mem_cons_of_mem rule h4⟩
        · rw [hspec, ih3]
          constructor
          · intro hall r hr hren
            rcases List.mem_cons.mp hr with hre | hre
            · subst hre; exact hmf
            · exact hall r hre hren
          · intro hall r hr hren
            exact hall r (List.mem_cons_of_mem rule hr) hren
    · have henf : rule.enabled = false := by
        cases hE : rule.enabled
        · rfl
        · cases hen hE
      have heq : matchFile env path (rule :: rest) = matchFile env path rest := by
        rw [matchFile]
        simp [henf]
      have hspec : matchFileSpec env path (rule :: rest) = matchFileSpec env path rest := by
        unfold matchFileSpec
        rw [List.find?_cons_of_neg _ (by simp [henf])]
      refine ⟨by rw [heq, hspec, ih1], ?_, ?_⟩
      · intro m hmm
        rw [hspec] at hmm
        obtain ⟨h1, h2, h3, h4⟩ := ih2 m hmm
        exact ⟨h1, h2, h3, List.mem_cons_of_mem rule h4⟩
      · rw [hspec, ih3]
        constructor
        · intro hall r hr hren
          rcases List.mem_cons.mp hr with hre | hre
          · subst hre; cases hen hren
          · exact hall r hre hren
        · intro hall r hr hren
          exact hall r (List.mem_cons_of_mem rule hr) hren

/-- Witness for C1: the spec §8 scenario — the `DCIM/**/*.jpg` rule wins
over the later `**/*.jpg` rule for `DCIM/100/IMG1.jpg` and resolves to
`/out/photos`. -/
theorem matchFile_first_enabled_witness :
    matchFile { home := "/home/u", cwd := "/cwd" } "DCIM/100/IMG1.jpg"
        [{ matchPat := "DCIM/**/*.jpg", destination := "/out/photos", enabled := true },
         { matchPat := "**/*.jpg", destination := "/out/all", enabled := true }] =
      Except.ok (matchFileSpec { home := "/home/u", cwd := "/cwd" } "DCIM/100/IMG1.jpg"
        [{ matchPat := "DCIM/**/*.jpg", destination := "/out/photos", enabled := true },
         { matchPat := "**/*.jpg", destination := "/out/all", enabled := true }]) ∧
    matchFileSpec { home := "/home/u", cwd := "/cwd" } "DCIM/100/IMG1.jpg"
        [{ matchPat := "DCIM/**/*.jpg", destination := "/out/photos", enabled := true },
         { matchPat := "**/*.jpg", destination := "/out/all", enabled := true }] =
      some { rule := { matchPat := "DCIM/**/*.jpg", destination := "/out/photos",
                       enabled := true },
             destination := "/out/photos" } := by
  refine ⟨(matchFile_first_enabled _ _ _ (by decide)).1, by decide⟩

/-- C9 counterexample: a configuration whose rule pattern is the empty
string — the pattern picomatch rejects with a compile error — passes the
entire configuration-load validation (`ConfigSchema` checks only that
`match` is a string), and the compile failure instead surfaces inside
`matchFile` as a per-file error during matching. -/
theorem configLoad_accepts_malformed_pattern :
    configSchemaParse (JValue.obj
      [("rules", JValue.arr [JValue.obj
          [("match", JValue.str ""), ("destination", JValue.str "/dst")]]),
       ("defaults", JValue.obj [("unmatchedDestination", JValue.null)])]) =
      Except.ok
        { rules := [{ matchPat := "", destination := "/dst", enabled := true }],
          unmatchedDestination := none, exclusions := [],
          features := { copyHistory := false, smartOrganization := false,
                        contentDuplicates := false, scheduledActions := false },
          smartOrganization :=
            { pattern := "\x7byear\x7d/\x7bmonth\x7d/\x7bday\x7d/\x7bname\x7d",
              useMetadata := true },
          scheduledActions :=
            { autoDeleteAfterCopy := false, autoEjectAfterCopy := false,
              cleanupOldFiles := false, cleanupDays := 30 } } ∧
    matchFile { home := "/root", cwd := "/" } "file.txt"
        [{ matchPat := "", destination := "/dst", enabled := true }] =
      Except.error "Expected pattern to be a non-empty string" := by
  exact ⟨by decide, by decide⟩

/-- C9 (amended): glob patterns are not compiled at configuration-load
time.  Schema validation accepts any string as a pattern, and a malformed
(empty) pattern on an enabled rule makes `matchFile` itself throw the
picomatch compile error, for every file it is asked to match — a per-file
error during matching, not a load-time one. -/
theorem patternCompile_fails_at_match_time (env : PathEnv) (path : String)
    (rest : List CopyRule) (r : CopyRule)
    (hen : r.enabled = true) (hmal : r.matchPat = "") :
    matchFile env path (r :: rest) =
      Except.error "Expected pattern to be a non-empty string" ∧
    (∀ (m d : String) (fields : List (String × JValue)),
      jGet fields "match" = some (JValue.str m) →
      jGet fields "destination" = some (JValue.str d) →
      jGet fields "enabled" = none →
      parseRule (JValue.obj fields) =
        Except.ok { matchPat := m, destination := d, enabled := true }) := by
  constructor
  · rw [matchFile]
    simp [hen, picomatchCompile, hmal]
  · intro m d fields hm hd he
    unfold parseRule
    simp only []
    rw [hm, hd, he]

/-- Witness for C9: the empty-pattern rule makes `matchFile` throw for the
concrete path `file.txt`, while the rule schema accepts an arbitrary
pattern string. -/
theorem patternCompile_fails_at_match_time_witness :
    matchFile { home := "/root", cwd := "/" } "file.txt"
        [{ matchPat := "", destination := "/dst", enabled := true }] =
      Except.error "Expected pattern to be a non-empty string" ∧
    parseRule (JValue.obj
        [("match", JValue.str "*.jpg"), ("destination", JValue.str "/photos")]) =
      Except.ok { matchPat := "*.jpg", destination := "/photos", enabled := true } := by
  have h := patternCompile_fails_at_match_time { home := "/root", cwd := "/" }
    "file.txt" [] { matchPat := "", destination := "/dst", enabled := true } rfl rfl
  exact ⟨h.1, h.2 "*.jpg" "/photos" _ rfl rfl rfl⟩

theorem compareList_swap : ∀ a b : List Nat, compareList b a = (compareList a b).swap
  | [], [] => rfl
  | [], _ :: _ => rfl
  | _ :: _, [] => rfl
  | a :: as, b :: bs => by
    simp only [compareList]
    rcases Nat.lt_trichotomy a b with h | h | h
    · simp [h, Nat.lt_asymm h, Ordering.swap]
    · subst h
      simp [Nat.lt_irrefl]
      exact compareList_swap as bs
    · simp [h, Nat.lt_asymm h, Ordering.swap]

theorem compareList_eq_iff : ∀ a b : List Nat, compareList a b = Ordering.eq ↔ a = b
  | [], [] => by simp [compareList]
  | [], _ :: _ => by simp [compareList]
  | _ :: _, [] => by simp [compareList]
  | a :: as, b :: bs => by
    simp only [compareList]
    rcases Nat.lt_trichotomy a b with h | h | h
    · simp [h]
      omega
    · subst h
      simp [Nat.lt_irrefl, compareList_eq_iff as bs]
    · simp [h, Nat.lt_asymm h]
      omega

theorem compareList_lt_trans : ∀ a b c : List Nat,
    compareList a b = Ordering.lt → compareList b c = Ordering.lt →
    compareList a c = Ordering.lt
  | [], [], _, hab, _ => by cases hab
  | [], _ :: _, [], _, hbc => by cases hbc
  | [], _ :: _, _ :: _, _, _ => rfl
  | _ :: _, [], _, hab, _ => by cases hab
  | _ :: _, _ :: _, [], _, hbc => by cases hbc
  | a :: as, b :: bs, c :: cs, hab, hbc => by
    simp only [compareList] at hab hbc ⊢
    rcases Nat.lt_trichotomy a b with h1 | h1 | h1
    · rcases Nat.lt_trichotomy b c with h2 | h2 | h2
      · simp [show a < c by omega]
      · simp [show a < c by omega]
      · simp [h2, Nat.lt_asymm h2] at hbc
    · subst h1
      rcases Nat.lt_trichotomy a c with h2 | h2 | h2
      · simp [h2]
      · subst h2
        simp [Nat.lt_irrefl] at hab hbc ⊢
        exact compareList_lt_trans as bs cs hab hbc
      · simp [h2, Nat.lt_asymm h2] at hbc
    · simp [h1, Nat.lt_asymm h1] at hab

theorem collCompare_swap (a b : String) : collCompare b a = (collCompare a b).swap := by
  unfold collCompare
  rw [compareList_swap (primaryKey a) (primaryKey b),
    compareList_swap (tertiaryKey a) (tertiaryKey b)]
  cases compareList (primaryKey a) (primaryKey b) <;>
    cases compareList (tertiaryKey a) (tertiaryKey b) <;> rfl

theorem collCompare_le_trans (a b c : String)
    (hab : collCompare a b ≠ Ordering.gt) (hbc : collCompare b c ≠ Ordering.gt) :
    collCompare a c ≠ Ordering.gt := by
  unfold collCompare at hab hbc ⊢
  cases hpab : compareList (primaryKey a) (primaryKey b) with
  | gt => rw [hpab] at hab; exact absurd rfl hab
  | lt =>
    rw [hpab] at hab
    cases hpbc : compareList (primaryKey b) (primaryKey c) with
    | gt => rw [hpbc] at hbc; exact absurd rfl hbc
    | lt =>
      rw [compareList_lt_trans _ _ _ hpab hpbc]
      simp
    | eq =>
      have heq := (compareList_eq_iff _ _).mp hpbc
      rw [← heq, hpab]
      simp
  | eq =>
    have heqp := (compareList_eq_iff _ _).mp hpab
    rw [hpab] at hab
    cases hpbc : compareList (primaryKey b) (primaryKey c) with
    | gt => rw [hpbc] at hbc; exact absurd rfl hbc
    | lt =>
      rw [heqp, hpbc]
      simp
    | eq =>
      have heqp2 := (compareList_eq_iff _ _).mp hpbc
      rw [heqp, hpbc]
      rw [hpbc] at hbc
      cases htab : compareList (tertiaryKey a) (tertiaryKey b) with
      | gt => rw [htab] at hab; exact absurd rfl hab
      | lt =>
        cases htbc : compareList (tertiaryKey b) (tertiaryKey c) with
        | gt => rw [htbc] at hbc; exact absurd rfl hbc
        | lt =>
          rw [compareList_lt_trans _ _ _ htab htbc]
          simp
        | eq =>
          have ht := (compareList_eq_iff _ _).mp htbc
          rw [← ht, htab]
          simp
      | eq =>
        have ht := (compareList_eq_iff _ _).mp htab
        rw [ht]
        exact hbc

theorem localeCompare_nonpos_iff (a b : String) :
    localeCompare a b ≤ 0 ↔ collCompare a b ≠ Ordering.gt := by
  unfold localeCompare
  cases collCompare a b <;> simp

theorem localeCompare_anti (a b : String)
    (h : ¬ localeCompare a b < 0) : localeCompare b a ≤ 0 := by
  unfold localeCompare at h ⊢
  rw [collCompare_swap a b]
  rcases hcc : collCompare a b <;> rw [hcc] at h <;> simp_all [Ordering.swap]

theorem localeCompare_trans (a b c : String)
    (hab : localeCompare a b ≤ 0) (hbc : localeCompare b c ≤ 0) :
    localeCompare a c ≤ 0 := by
  rw [localeCompare_nonpos_iff] at hab hbc ⊢
  exact collCompare_le_trans a b c hab hbc

theorem entryCompare_le_iff (a b : FileEntry) :
    entryCompare a b ≤ 0 ↔
      (a.isDirectory = true ∧ b.isDirectory = false) ∨
        (a.isDirectory = b.isDirectory ∧ localeCompare a.name b.name ≤ 0) := by
  unfold entryCompare
  rcases ha : a.isDirectory <;> rcases hb : b.isDirectory <;> simp [ha, hb]

theorem entryCompare_anti (a b : FileEntry)
    (h : ¬ entryCompare a b < 0) : entryCompare b a ≤ 0 := by
  rw [entryCompare_le_iff]
  unfold entryCompare at h
  rcases ha : a.isDirectory <;> rcases hb : b.isDirectory <;> simp [ha, hb] at h ⊢
  · exact localeCompare_anti a.name b.name (by omega)
  · exact localeCompare_anti a.name b.name (by omega)

theorem entryCompare_trans (a b c : FileEntry)
    (hab : entryCompare a b ≤ 0) (hbc : entryCompare b c ≤ 0) :
    entryCompare a c ≤ 0 := by
  rw [entryCompare_le_iff] at hab hbc ⊢
  rcases ha : a.isDirectory <;> rcases hb : b.isDirectory <;> rcases hc : c.isDirectory <;>
    simp [ha, hb, hc] at hab hbc ⊢ <;>
    exact localeCompare_trans a.name b.name c.name hab hbc

theorem mem_insertBy {α : Type} (cmp : α → α → Int) (x y : α) :
    ∀ l : List α, y ∈ insertBy cmp x l ↔ y = x ∨ y ∈ l
  | [] => by simp [insertBy]
  | z :: zs => by
    unfold insertBy
    by_cases h : cmp x z < 0
    · rw [if_pos h]
      simp only [List.mem_cons]
    · rw [if_neg h]
      simp only [List.mem_cons, mem_insertBy cmp x y zs]
      tauto

theorem insertBy_pairwise {α : Type} (cmp : α → α → Int)
    (hanti : ∀ a b, ¬ cmp a b < 0 → cmp b a ≤ 0)
    (htrans : ∀ a b c, cmp a b ≤ 0 → cmp b c ≤ 0 → cmp a c ≤ 0) (x : α) :
    ∀ l : List α, List.Pairwise (fun a b => cmp a b ≤ 0) l →
      List.Pairwise (fun a b => cmp a b ≤ 0) (insertBy cmp x l)
  | [], _ => by simp [insertBy]
  | z :: zs, hl => by
    obtain ⟨hz, hzs⟩ := List.pairwise_cons.mp hl
    unfold insertBy
    by_cases h : cmp x z < 0
    · rw [if_pos h]
      refine List.pairwise_cons.mpr ⟨?_, hl⟩
      intro w hw
      rcases List.mem_cons.mp hw with hw | hw
      · subst hw; omega
      · exact htrans x z w (by omega) (hz w hw)
    · rw [if_neg h]
      refine List.pairwise_cons.mpr ⟨?_, insertBy_pairwise cmp hanti htrans x zs hzs⟩
      intro w hw
      rcases (mem_insertBy cmp x w zs).mp hw with hw | hw
      · rw [hw]
        exact hanti x z h
      · exact hz w hw

theorem stableSortBy_pairwise_aux {α : Type} (cmp : α → α → Int)
    (hanti : ∀ a b, ¬ cmp a b < 0 → cmp b a ≤ 0)
    (htrans : ∀ a b c, cmp a b ≤ 0 → cmp b c ≤ 0 → cmp a c ≤ 0) :
    ∀ (l acc : List α), List.Pairwise (fun a b => cmp a b ≤ 0) acc →
      List.Pairwise (fun a b => cmp a b ≤ 0)
        (l.foldl (fun acc x => insertBy cmp x acc) acc)
  | [], acc, hacc => hacc
  | x :: xs, acc, hacc => by
    rw [List.foldl_cons]
    exact stableSortBy_pairwise_aux cmp hanti htrans xs (insertBy cmp x acc)
      (insertBy_pairwise cmp hanti htrans x acc hacc)

theorem mem_stableSortBy_aux {α : Type} (cmp : α → α → Int) (y : α) :
    ∀ (l acc : List α),
      (y ∈ l.foldl (fun acc x => insertBy cmp x acc) acc ↔ y ∈ acc ∨ y ∈ l)
  | [], acc => by simp
  | x :: xs, acc => by
    rw [List.foldl_cons, mem_stableSortBy_aux cmp y xs (insertBy cmp x acc),
      mem_insertBy cmp x y acc]
    simp
    tauto

theorem sortEntries_pairwise (l : List FileEntry) :
    List.Pairwise (fun a b => entryCompare a b ≤ 0) (sortEntries l) :=
  stableSortBy_pairwise_aux entryCompare entryCompare_anti entryCompare_trans l []
    (by simp)

theorem mem_sortEntries (y : FileEntry) (l : List FileEntry) :
    y ∈ sortEntries l ↔ y ∈ l := by
  unfold sortEntries stableSortBy
  rw [mem_stableSortBy_aux entryCompare y l []]
  simp

/-- C7 counterexample: scanning a directory holding the two plain files
`Banana` and `apple` returns them in the order `apple, Banana` (the
`localeCompare` collation), although `Banana` precedes `apple` in
case-sensitive code-unit lexicographic order — so siblings are not sorted
case-sensitively lexicographically as claimed. -/
theorem scanDirectory_not_codeunit_sorted :
    (scanDirectory 10 [] "/usb" ""
        [FsNode.file "Banana" 1 0 true, FsNode.file "apple" 1 0 true]).map
      FileEntry.name = ["apple", "Banana"] ∧
    (scanDirectory 10 [] "/usb" ""
        [FsNode.file "Banana" 1 0 true, FsNode.file "apple" 1 0 true]).map
      FileEntry.isDirectory = [false, false] ∧
    "Banana".toList < "apple".toList := by
  exact ⟨by decide, by decide, by decide⟩

/-- C7 (amended): every `scanDirectory` result lists all directories
before all files, and within the sequence any two same-kind siblings are
in `localeCompare` order (the locale-aware, primarily case-insensitive
JavaScript collation) — not in case-sensitive code-unit order. -/
theorem scanDirectory_sorted_localeCompare (fuel : Nat) (excl : List String)
    (absPre relPre : String) (items : List FsNode) :
    List.Pairwise
      (fun a b => (b.isDirectory = true → a.isDirectory = true) ∧
        (a.isDirectory = b.isDirectory → localeCompare a.name b.name ≤ 0))
      (scanDirectory fuel excl absPre relPre items) := by
  have h := sortEntries_pairwise (scanGo fuel excl absPre relPre items)
  unfold scanDirectory
  refine h.imp ?_
  intro a b hab
  rw [entryCompare_le_iff] at hab
  constructor
  · intro hb
    rcases hab with ⟨ha, hbf⟩ | ⟨heq, _⟩
    · rw [hbf] at hb; cases hb
    · rw [heq]; exact hb
  · intro heq
    rcases hab with ⟨ha, hbf⟩ | ⟨_, hl⟩
    · rw [ha, hbf] at heq; cases heq
    · exact hl

theorem isExcluded_eq_spec : ∀ (excl : List String) (rel name : String),
    (∀ p ∈ excl, p ≠ "") →
    isExcluded rel name excl = Except.ok (isExcludedB rel name excl)
  | [], rel, name, h => rfl
  | pat :: rest, rel, name, h => by
    have hne : pat ≠ "" := h pat (List.mem_cons_self _ _)
    have hrest : ∀ p ∈ rest, p ≠ "" := fun p hp => h p (List.mem_cons_of_mem _ hp)
    rw [isExcluded]
    simp only [picomatchCompile, if_neg hne]
    unfold isExcludedB
    simp only [List.any_cons]
    by_cases hm : (globMatch pat exclOpts name || globMatch pat exclOpts rel) = true
    · simp [hm]
    · have hmf : (globMatch pat exclOpts name || globMatch pat exclOpts rel) = false := by
        simpa using hm
      rw [if_neg hm, hmf, Bool.false_or]
      exact isExcluded_eq_spec rest rel name hrest

theorem namesIn_not_mem (bad : String) :
    ∀ (fuelN : Nat) (l : List FileEntry),
    (∀ e ∈ l, SafeEntry bad e) → bad ∉ namesIn fuelN l
  | 0, l, h => by simp [namesIn]
  | fuelN + 1, [], h => by simp [namesIn]
  | fuelN + 1, e :: rest, h => by
    rw [namesIn]
    intro hmem
    rcases List.mem_cons.mp hmem with hmem | hmem
    · exact (h e (List.mem_cons_self _ _)).1 hmem.symm
    · rcases List.mem_append.mp hmem with hmem | hmem
      · rcases hcs : e.children with - | cs
        · rw [hcs] at hmem
          simp at hmem
        · rw [hcs] at hmem
          exact (h e (List.mem_cons_self _ _)).2 cs hcs fuelN hmem
      · exact namesIn_not_mem bad fuelN rest
          (fun x hx => h x (List.mem_cons_of_mem _ hx)) hmem

theorem dsstore_excludedB (rel : String) (excl : List String)
    (h : ".DS_Store" ∈ excl) : isExcludedB rel ".DS_Store" excl = true := by
  unfold isExcludedB
  rw [List.any_eq_true]
  refine ⟨".DS_Store", h, ?_⟩
  rw [show globMatch ".DS_Store" exclOpts ".DS_Store" = true from by decide]
  rfl

theorem scanGo_all_safe : ∀ (fuel : Nat) (excl : List String) (absPre relPre : String)
    (items : List FsNode), ".DS_Store" ∈ excl → (∀ p ∈ excl, p ≠ "") →
    ∀ e ∈ scanGo fuel excl absPre relPre items, SafeEntry ".DS_Store" e
  | 0, _, _, _, _, _, _, e, he => by simp [scanGo] at he
  | _ + 1, excl, absPre, relPre, [], _, _, e, he => by simp [scanGo] at he
  | fuel + 1, excl, absPre, relPre, item :: rest, hds, hwf, e, he => by
    rw [scanGo.eq_def] at he
    simp only [] at he
    rw [isExcluded_eq_spec excl (childRel relPre item.name) item.name hwf] at he
    by_cases hex : isExcludedB (childRel relPre item.name) item.name excl = true
    · rw [hex] at he
      simp only [] at he
      exact scanGo_all_safe fuel excl absPre relPre rest hds hwf e he
    · rw [show isExcludedB (childRel relPre item.name) item.name excl = false from by
        simpa using hex] at he
      simp only [] at he
      by_cases hrb : item.name = "$RECYCLE.BIN"
      · rw [if_pos hrb] at he
        exact scanGo_all_safe fuel excl absPre relPre rest hds hwf e he
      · rw [if_neg hrb] at he
        have hnds : item.name ≠ ".DS_Store" := by
          intro hn
          rw [hn] at hex
          exact hex (dsstore_excludedB (childRel relPre ".DS_Store") excl hds)
        cases item with
        | file n sz mt ok =>
          cases ok with
          | false =>
            simp only [] at he
            exact scanGo_all_safe fuel excl absPre relPre rest hds hwf e he
          | true =>
            simp only [] at he
            rcases List.mem_cons.mp he with he | he
            · subst he
              refine ⟨hnds, ?_⟩
              intro cs hcs
              simp [FileEntry.children] at hcs
            · exact scanGo_all_safe fuel excl absPre relPre rest hds hwf e he
        | dir n sz mt ok rd ch =>
          cases ok with
          | false =>
            simp only [] at he
            exact scanGo_all_safe fuel excl absPre relPre rest hds hwf e he
          | true =>
            simp only [] at he
            rcases List.mem_cons.mp he with he | he
            · subst he
              refine ⟨hnds, ?_⟩
              intro cs hcs f2
              simp only [FileEntry.children, Option.some_inj] at hcs
              subst hcs
              refine namesIn_not_mem ".DS_Store" f2 _ ?_
              intro x hx
              rw [mem_sortEntries] at hx
              rcases hrd : rd with - | -
              · rw [hrd] at hx
                simp at hx
              · rw [hrd] at hx
                exact scanGo_all_safe fuel excl
                  (nodeJoin absPre (FsNode.dir n sz mt true rd ch).name)
                  (childRel relPre (FsNode.dir n sz mt true rd ch).name) ch hds hwf x hx
            · exact scanGo_all_safe fuel excl absPre relPre rest hds hwf e he

theorem scanGo_names : ∀ (fuel : Nat) (excl : List String) (absPre relPre : String)
    (items : List FsNode), (∀ p ∈ excl, p ≠ "") → items.length < fuel →
    (scanGo fuel excl absPre relPre items).map FileEntry.name =
      (items.filter fun it =>
        !isExcludedB (childRel relPre it.name) it.name excl &&
          !(it.name == "$RECYCLE.BIN") && it.statOk).map FsNode.name
  | 0, _, _, _, items, _, hfuel => by omega
  | _ + 1, excl, absPre, relPre, [], _, _ => by simp [scanGo]
  | fuel + 1, excl, absPre, relPre, item :: rest, hwf, hfuel => by
    have hrest : rest.length < fuel := by
      simp only [List.length_cons] at hfuel
      omega
    rw [scanGo.eq_def]
    simp only []
    rw [isExcluded_eq_spec excl (childRel relPre item.name) item.name hwf]
    rw [List.filter_cons]
    by_cases hex : isExcludedB (childRel relPre item.name) item.name excl = true
    · rw [hex]
      simp only [hex, Bool.not_true, Bool.false_and, Bool.and_false, if_false,
        Bool.false_eq_true]
      exact scanGo_names fuel excl absPre relPre rest hwf hrest
    · rw [show isExcludedB (childRel relPre item.name) item.name excl = false from by
        simpa using hex]
      simp only [Bool.not_false, Bool.true_and]
      by_cases hrb : item.name = "$RECYCLE.BIN"
      · rw [if_pos hrb]
        rw [show (item.name == "$RECYCLE.BIN") = true from by
          rw [hrb]; rfl]
        simp only [Bool.not_true, Bool.false_and, Bool.false_eq_true, if_false]
        exact scanGo_names fuel excl absPre relPre rest hwf hrest
      · rw [if_neg hrb]
        rw [show (item.name == "$RECYCLE.BIN") = false from by
          simpa using hrb]
        simp only [Bool.not_false, Bool.true_and]
        cases item with
        | file n sz mt ok =>
          cases ok with
          | false =>
            simp only [FsNode.statOk, Bool.false_eq_true, if_false]
            exact scanGo_names fuel excl absPre relPre rest hwf hrest
          | true =>
            simp only [FsNode.statOk, if_true, List.map_cons]
            rw [scanGo_names fuel excl absPre relPre rest hwf hrest]
            rfl
        | dir n sz mt ok rd ch =>
          cases ok with
          | false =>
            simp only [FsNode.statOk, Bool.false_eq_true, if_false]
            exact scanGo_names fuel excl absPre relPre rest hwf hrest
          | true =>
            simp only [FsNode.statOk, if_true, List.map_cons]
            rw [scanGo_names fuel excl absPre relPre rest hwf hrest]
            rfl

/-- C8 counterexample: an accessible entry named `$RECYCLE.BIN` is omitted
from the scan result even though the exclusion list is empty and hence no
exclusion pattern matches it — omission is not *exactly* exclusion-pattern
matching. -/
theorem scanDirectory_recycle_bin_counterexample :
    scanDirectory 10 [] "/usb" ""
      [FsNode.file "$RECYCLE.BIN" 1 0 true] = [] ∧
    isExcluded "$RECYCLE.BIN" "$RECYCLE.BIN" [] = Except.ok false := ⟨rfl, rfl⟩

/-- C8 (amended): (i) with well-formed patterns, `isExcluded` decides
exactly "some exclusion pattern matches the bare name or the relative path"
under the Exclusion profile (case-insensitive, dotfiles included); (ii) the
empty exclusion list excludes nothing; (iii) when `.DS_Store` is among the
exclusions (for example together with `**/__MACOSX/**`), no entry named
`.DS_Store` appears at any nesting depth of any scan result; (iv) a sibling
appears in the scan output exactly when it is accessible, not named
`$RECYCLE.BIN`, and matched by no exclusion pattern — the carve-outs the
original claim lacked; (v) sorting does not change membership. -/
theorem scan_exclusion_characterization :
    (∀ (excl : List String) (rel name : String), (∀ p ∈ excl, p ≠ "") →
      isExcluded rel name excl = Except.ok (isExcludedB rel name excl)) ∧
    (∀ rel name : String, isExcluded rel name [] = Except.ok false) ∧
    (∀ (fuel fuelN : Nat) (excl : List String) (absPre relPre : String)
      (items : List FsNode), ".DS_Store" ∈ excl → (∀ p ∈ excl, p ≠ "") →
      ".DS_Store" ∉ namesIn fuelN (scanDirectory fuel excl absPre relPre items)) ∧
    (∀ (fuel : Nat) (excl : List String) (absPre relPre : String)
      (items : List FsNode), (∀ p ∈ excl, p ≠ "") → items.length < fuel →
      (scanGo fuel excl absPre relPre items).map FileEntry.name =
        (items.filter fun it =>
          !isExcludedB (childRel relPre it.name) it.name excl &&
            !(it.name == "$RECYCLE.BIN") && it.statOk).map FsNode.name) ∧
    (∀ (fuel : Nat) (excl : List String) (absPre relPre : String)
      (items : List FsNode) (e : FileEntry),
      e ∈ scanDirectory fuel excl absPre relPre items ↔
        e ∈ scanGo fuel excl absPre relPre items) := by
  refine ⟨fun excl rel name h => isExcluded_eq_spec excl rel name h,
    fun rel name => rfl, ?_, scanGo_names, ?_⟩
  · intro fuel fuelN excl absPre relPre items hds hwf
    unfold scanDirectory
    refine namesIn_not_mem ".DS_Store" fuelN _ ?_
    intro e he
    rw [mem_sortEntries] at he
    exact scanGo_all_safe fuel excl absPre relPre items hds hwf e he
  · intro fuel excl absPre relPre items e
    unfold scanDirectory
    exact mem_sortEntries e _

/-- Witness for C8: the spec scenario — with exclusions
`[.DS_Store, **/__MACOSX/**]`, a `.DS_Store` at depth 0 and one nested
under `sub/` are both omitted, while `keep.txt` survives. -/
theorem scan_exclusion_characterization_witness :
    ".DS_Store" ∉ namesIn 10 (scanDirectory 10 [".DS_Store", "**/__MACOSX/**"] "/usb" ""
      [FsNode.file ".DS_Store" 1 0 true,
       FsNode.dir "sub" 0 0 true true
         [FsNode.file ".DS_Store" 1 0 true, FsNode.file "keep.txt" 1 0 true]]) ∧
    (scanGo 10 [".DS_Store", "**/__MACOSX/**"] "/usb" ""
        [FsNode.file ".DS_Store" 1 0 true, FsNode.file "keep.txt" 1 0 true]).map
      FileEntry.name = ["keep.txt"] := by
  constructor
  · exact scan_exclusion_characterization.2.2.1 10 10 _ "/usb" "" _
      (by decide) (by decide)
  · rw [scan_exclusion_characterization.2.2.2.1 10 _ "/usb" "" _
      (by decide) (by decide)]
    decide

end UsbManager
